import Mathlib

/-!
# Verification of the RandomDebateBot matchmaking core

Shallow embedding of `src/services/game_logic.py` (`GameManager`): the
per-language waiting pools, the participant involvement registry, the
join operations, the matchmaking pass (team formation + room formation
with rollback), and the leave-queue cascade.

Notifications (`_safe_send_message`) are modelled as pure no-ops: all
participants are assumed reachable, so the unreachability auto-eviction
path never fires and message sending has no effect on the state.  The
wall-clock fields (`created_at`, meeting start/end times) are omitted
from `Room` because nothing in the queue logic reads them.  The external
Google-Meet call is modelled as an oracle argument: `some (eventId, uri)`
for a successful creation carrying a usable link, `none` for a creation
that returns no usable link.
-/

/-- The supported game languages: the pools dictionaries in
`GameManager.__init__` are keyed exactly by `"en"` and `"ru"`. -/
inductive Lang where
  | en
  | ru
deriving DecidableEq, Repr

instance : Fintype Lang :=
  ⟨⟨{Lang.en, Lang.ru}, by decide⟩, by intro x; cases x <;> decide⟩

/-- String code of a language, as the python dict keys / f-strings use it. -/
def Lang.code : Lang → String
  | .en => "en"
  | .ru => "ru"

/-- A per-language table, mirroring the python dicts
`{"en": ..., "ru": ...}`. -/
structure PerLang (α : Type) where
  en : α
  ru : α
deriving DecidableEq, Repr

/-- `d[lang]` on a per-language dict. -/
def PerLang.get {α : Type} (p : PerLang α) : Lang → α
  | .en => p.en
  | .ru => p.ru

/-- `d[lang] = v` on a per-language dict. -/
def PerLang.set {α : Type} (p : PerLang α) : Lang → α → PerLang α
  | .en, v => { p with en := v }
  | .ru, v => { p with ru := v }

/-- `UserTuple = Tuple[int, str]`: (user id, display username). -/
abbrev UserTuple := Nat × String

/-- `TeamTuple = Tuple[UserTuple, UserTuple]`. -/
abbrev TeamTuple := UserTuple × UserTuple

/-- Involvement status strings used by `GameManager`.  `statusNone` and
`left` are the two values (`None`, `"left"`) that `is_user_occupied`
treats as not occupied; `inGame r` stands for the string
`f"in_game_{room_id}"`. -/
inductive Status where
  | waitingSingle
  | waitingTeamPartner
  | waitingAsTeam
  | waitingJudge
  | inGame (roomId : String)
  | statusNone
  | left
deriving DecidableEq, Repr

/-- `role` field of an involvement record. -/
inductive Role where
  | player
  | judge
deriving DecidableEq, Repr

/-- One record of `self.user_involvement`:
`{"game_lang": ..., "role": ..., "status": ..., "ui_lang": ...}`. -/
structure Involvement where
  gameLang : Lang
  role : Role
  status : Status
  uiLang : String
deriving DecidableEq, Repr

/-- Registry of involvement records, the python dict
`user_involvement: Dict[int, Dict[str, Any]]` as an association list
(the code never iterates it, only gets/sets/pops single keys). -/
abbrev Reg := List (Nat × Involvement)

/-- `user_involvement.get(user_id)`. -/
def lookupReg : Reg → Nat → Option Involvement
  | [], _ => none
  | (k, v) :: rest, u => if k = u then some v else lookupReg rest u

/-- `user_involvement[user_id] = record` (replace or append). -/
def insertReg : Reg → Nat → Involvement → Reg
  | [], u, r => [(u, r)]
  | (k, v) :: rest, u, r => if k = u then (u, r) :: rest else (k, v) :: insertReg rest u r

/-- `user_involvement.pop(user_id, None)` (drops the entry). -/
def eraseReg : Reg → Nat → Reg
  | [], _ => []
  | (k, v) :: rest, u => if k = u then rest else (k, v) :: eraseReg rest u

/-- `user_involvement[uid]["status"] = s` / `.update({"status": s})`:
in the source this raises `KeyError` when no record exists; modelled as
an update-if-present (the raising case is unreachable from consistent
states, where every pool member has a record). -/
def updateStatus (reg : Reg) (u : Nat) (s : Status) : Reg :=
  match lookupReg reg u with
  | some r => insertReg reg u { r with status := s }
  | none => reg

/-- A formed room (`new_room` dict in `try_matchmake`); the
`created_at` wall-clock field is omitted (never read by the logic). -/
structure Room where
  id : String
  language : Lang
  judge : UserTuple
  teams : List TeamTuple
  meetLink : String
deriving DecidableEq, Repr

/-- The whole mutable state of a `GameManager`. -/
structure GMState where
  singles : PerLang (List UserTuple)
  pending : PerLang (Option UserTuple)
  teams : PerLang (List TeamTuple)
  judges : PerLang (List UserTuple)
  rooms : List Room
  reg : Reg
deriving DecidableEq, Repr

/-- `GameManager.__init__`: empty pools, empty registry. -/
def initialState : GMState :=
  { singles := ⟨[], []⟩, pending := ⟨none, none⟩, teams := ⟨[], []⟩,
    judges := ⟨[], []⟩, rooms := [], reg := [] }

/-- `self.MAX_PLAYERS_PER_TEAM = 2`. -/
def MAX_PLAYERS_PER_TEAM : Nat := 2

/-- `self.TEAMS_PER_ROOM = 4`. -/
def TEAMS_PER_ROOM : Nat := 4

/-- `self.JUDGES_PER_ROOM = 1`. -/
def JUDGES_PER_ROOM : Nat := 1

/-- `_get_user_info`: `(user_id, username if username else f"user{user_id}")`. -/
def mkUserInfo (uid : Nat) (username : Option String) : UserTuple :=
  (uid, username.getD ("user" ++ toString uid))

/-- `is_user_occupied`: a record exists and its status is not in
`[None, "left"]`. -/
def isUserOccupied (st : GMState) (uid : Nat) : Bool :=
  match lookupReg st.reg uid with
  | some inv =>
    match inv.status with
    | .statusNone => false
    | .left => false
    | _ => true
  | none => false

/-- `is_user_in_waiting_queue`: status is one of the four waiting states. -/
def isUserInWaitingQueue (st : GMState) (uid : Nat) : Bool :=
  match lookupReg st.reg uid with
  | some inv =>
    match inv.status with
    | .waitingSingle => true
    | .waitingTeamPartner => true
    | .waitingAsTeam => true
    | .waitingJudge => true
    | _ => false
  | none => false

/-- `add_player_single` (lines 75–89): reject if occupied, else append to
`singles`, record status `waiting_single`.  The spawned `try_matchmake`
task is a separate step (see `Op`). -/
def addPlayerSingle (uid : Nat) (username : Option String) (gl : Lang) (ul : String)
    (st : GMState) : GMState × Bool :=
  if isUserOccupied st uid then (st, false)
  else
    let ui := mkUserInfo uid username
    ({ st with
        singles := st.singles.set gl (st.singles.get gl ++ [ui]),
        reg := insertReg st.reg uid ⟨gl, .player, .waitingSingle, ul⟩ }, true)

/-- `add_player_team` (lines 91–144): reject if occupied; if a first
player is pending and it is the same id, reject (self-teaming); if a
first player is pending, pair them into a formed team and clear the
slot; otherwise store the caller as pending first player. -/
def addPlayerTeam (uid : Nat) (username : Option String) (gl : Lang) (ul : String)
    (st : GMState) : GMState × Bool :=
  if isUserOccupied st uid then (st, false)
  else
    let cur := mkUserInfo uid username
    match st.pending.get gl with
    | some fp =>
      if fp.1 = uid then (st, false)
      else
        ({ st with
            teams := st.teams.set gl (st.teams.get gl ++ [(fp, cur)]),
            pending := st.pending.set gl none,
            reg := insertReg (updateStatus st.reg fp.1 .waitingAsTeam) uid
              ⟨gl, .player, .waitingAsTeam, ul⟩ }, true)
    | none =>
      ({ st with
          pending := st.pending.set gl (some cur),
          reg := insertReg st.reg uid ⟨gl, .player, .waitingTeamPartner, ul⟩ }, true)

/-- `add_judge` (lines 146–162): reject if occupied, else append to
`judges`, record status `waiting_judge`. -/
def addJudge (uid : Nat) (username : Option String) (gl : Lang) (ul : String)
    (st : GMState) : GMState × Bool :=
  if isUserOccupied st uid then (st, false)
  else
    let ui := mkUserInfo uid username
    ({ st with
        judges := st.judges.set gl (st.judges.get gl ++ [ui]),
        reg := insertReg st.reg uid ⟨gl, .judge, .waitingJudge, ul⟩ }, true)

/-- The `while len(single_players_pool) >= 2` loop of `try_matchmake`
(lines 200–229): repeatedly pop the two earliest singles, append them as
a team, set both statuses to `waiting_as_team`. -/
def formTeamsLoop : List UserTuple → List TeamTuple → Reg →
    List UserTuple × List TeamTuple × Reg
  | p1 :: p2 :: rest, ts, reg =>
    formTeamsLoop rest (ts ++ [(p1, p2)])
      (updateStatus (updateStatus reg p1.1 .waitingAsTeam) p2.1 .waitingAsTeam)
  | xs, ts, reg => (xs, ts, reg)

/-- Team-formation phase of `try_matchmake` for one language. -/
def teamFormation (gl : Lang) (st : GMState) : GMState :=
  let r := formTeamsLoop (st.singles.get gl) (st.teams.get gl) st.reg
  { st with
      singles := st.singles.set gl r.1,
      teams := st.teams.set gl r.2.1,
      reg := r.2.2 }

/-- Status writes of the `for team_idx, team in enumerate(selected_teams)`
loop (lines 280–306): each member of each reserved team in order. -/
def setTeamsStatus (s : Status) : List TeamTuple → Reg → Reg
  | [], reg => reg
  | (p1, p2) :: rest, reg =>
    setTeamsStatus s rest (updateStatus (updateStatus reg p1.1 s) p2.1 s)

/-- Room-formation phase of `try_matchmake` (lines 235–321), given the
oracle result `res` of `create_google_meet_event`: reserve the four
earliest teams and the earliest judge; on a usable link build the room
and set everyone `in_game`; on failure prepend the reserved teams and
judge back (lines 311–312); below threshold do nothing. -/
def roomFormation (res : Option (String × String)) (gl : Lang) (st : GMState) : GMState :=
  let ts := st.teams.get gl
  let js := st.judges.get gl
  if TEAMS_PER_ROOM ≤ ts.length ∧ JUDGES_PER_ROOM ≤ js.length then
    match js with
    | [] => st
    | judge :: restJudges =>
      let selected := ts.take TEAMS_PER_ROOM
      let restTeams := ts.drop TEAMS_PER_ROOM
      match res with
      | some (eventId, uri) =>
        let roomId := "room_" ++ gl.code ++ "_" ++ (eventId.take 8)
        let newRoom : Room :=
          { id := roomId, language := gl, judge := judge, teams := selected, meetLink := uri }
        { st with
            teams := st.teams.set gl restTeams,
            judges := st.judges.set gl restJudges,
            rooms := st.rooms ++ [newRoom],
            reg := setTeamsStatus (.inGame roomId) selected
              (updateStatus st.reg judge.1 (.inGame roomId)) }
      | none =>
        { st with
            teams := st.teams.set gl (selected ++ restTeams),
            judges := st.judges.set gl (judge :: restJudges) }
  else st

/-- One full `try_matchmake` pass for one language: the team-formation
loop followed by one room-formation attempt.  The recursive
`asyncio.create_task(self.try_matchmake(...))` after a success is a
separately scheduled pass, i.e. another `Op.matchmake` step. -/
def tryMatchmakePass (res : Option (String × String)) (gl : Lang) (st : GMState) : GMState :=
  roomFormation res gl (teamFormation gl st)

/-- The room threshold test of the pass: after team formation,
`len(available_teams) >= TEAMS_PER_ROOM and len(available_judges) >=
JUDGES_PER_ROOM` — exactly when the pass reserves participants and
attempts an external resource creation. -/
def attemptsCreation (gl : Lang) (st : GMState) : Prop :=
  TEAMS_PER_ROOM ≤ ((teamFormation gl st).teams.get gl).length ∧
    JUDGES_PER_ROOM ≤ ((teamFormation gl st).judges.get gl).length

instance (gl : Lang) (st : GMState) : Decidable (attemptsCreation gl st) := by
  unfold attemptsCreation; infer_instance

/-- The `for i, team_tuple_iter in enumerate(...)` search of
`remove_user_from_queues` (lines 371–380): first team containing the
id, returning its index and the other member. -/
def findTeamWithMate (uid : Nat) : List TeamTuple → Option (Nat × UserTuple)
  | [] => none
  | (p1, p2) :: rest =>
    if p1.1 = uid then some (0, p2)
    else if p2.1 = uid then some (0, p1)
    else
      match findTeamWithMate uid rest with
      | some (i, m) => some (i + 1, m)
      | none => none

/-- `remove_user_from_queues` (lines 323–428): pop the involvement
record; reject (restoring the record) when in game; otherwise remove the
participant from the structure matching the recorded status, cascading a
team's surviving member back into `singles`. -/
def removeUserFromQueues (uid : Nat) (st : GMState) : GMState × Bool :=
  match lookupReg st.reg uid with
  | none => (st, false)
  | some inv =>
    let st1 : GMState := { st with reg := eraseReg st.reg uid }
    match inv.status with
    | .inGame r =>
      ({ st1 with reg := insertReg st1.reg uid ⟨inv.gameLang, inv.role, .inGame r, inv.uiLang⟩ },
        false)
    | .waitingSingle =>
      ({ st1 with
          singles := st1.singles.set inv.gameLang
            ((st1.singles.get inv.gameLang).filter (fun u => u.1 ≠ uid)) }, true)
    | .waitingTeamPartner =>
      match st1.pending.get inv.gameLang with
      | some p =>
        if p.1 = uid then
          ({ st1 with pending := st1.pending.set inv.gameLang none }, true)
        else (st1, false)
      | none => (st1, false)
    | .waitingAsTeam =>
      match findTeamWithMate uid (st1.teams.get inv.gameLang) with
      | some (i, mate) =>
        let st2 : GMState := { st1 with
          teams := st1.teams.set inv.gameLang ((st1.teams.get inv.gameLang).eraseIdx i) }
        match lookupReg st2.reg mate.1 with
        | some mateInv =>
          ({ st2 with
              reg := insertReg st2.reg mate.1 { mateInv with status := .waitingSingle },
              singles := st2.singles.set inv.gameLang
                (st2.singles.get inv.gameLang ++ [mate]) }, true)
        | none => (st2, true)
      | none => (st1, false)
    | .waitingJudge =>
      ({ st1 with
          judges := st1.judges.set inv.gameLang
            ((st1.judges.get inv.gameLang).filter (fun u => u.1 ≠ uid)) }, true)
    | .statusNone => (st1, false)
    | .left => (st1, false)

/-- A public operation on the manager state; `matchmake res gl` is a
scheduled `try_matchmake(gl)` pass whose external resource creation (if
reached) returns `res`. -/
inductive Op where
  | addSingle (uid : Nat) (username : Option String) (gl : Lang) (ul : String)
  | addTeam (uid : Nat) (username : Option String) (gl : Lang) (ul : String)
  | addJudge (uid : Nat) (username : Option String) (gl : Lang) (ul : String)
  | matchmake (res : Option (String × String)) (gl : Lang)
  | remove (uid : Nat)

/-- Apply one operation (dropping its boolean result). -/
def applyOp (op : Op) (st : GMState) : GMState :=
  match op with
  | .addSingle uid un gl ul => (addPlayerSingle uid un gl ul st).1
  | .addTeam uid un gl ul => (addPlayerTeam uid un gl ul st).1
  | .addJudge uid un gl ul => (addJudge uid un gl ul st).1
  | .matchmake res gl => tryMatchmakePass res gl st
  | .remove uid => (removeUserFromQueues uid st).1

/-- Apply a sequence of operations in order. -/
def applyOps : List Op → GMState → GMState
  | [], st => st
  | op :: rest, st => applyOps rest (applyOp op st)

/-! ## Identifier occupancy and the registry invariant -/

/-- Identifiers of a list of user tuples. -/
def idsOf (l : List UserTuple) : List Nat := l.map (·.1)

/-- Identifiers of the members of a list of teams, in member order. -/
def teamIds (ts : List TeamTuple) : List Nat := ts.flatMap (fun t => [t.1.1, t.2.1])

/-- Identifier (if any) held in a pending-partner slot. -/
def pendingIds (p : Option UserTuple) : List Nat := p.toList.map (·.1)

/-- All identifiers occupying one language's pools, in pool order:
singles, pending partner, formed-team members, judges. -/
def langIds (st : GMState) (l : Lang) : List Nat :=
  idsOf (st.singles.get l) ++ pendingIds (st.pending.get l) ++
    teamIds (st.teams.get l) ++ idsOf (st.judges.get l)

/-- All identifiers occupying any pool of any language. -/
def occIds (st : GMState) : List Nat := langIds st .en ++ langIds st .ru

/-- Keys of the involvement registry. -/
def regKeys (reg : Reg) : List Nat := reg.map (·.1)

/-- The registry record of identifier `u` exists with status `s` and
game language `l`. -/
def recOK (st : GMState) (u : Nat) (s : Status) (l : Lang) : Prop :=
  (lookupReg st.reg u).map (·.status) = some s ∧
    (lookupReg st.reg u).map (·.gameLang) = some l

/-- Every pool member's registry record exists and matches the
structure it appears in (status and language). -/
def structToStatus (st : GMState) : Prop :=
  ∀ l : Lang,
    (∀ u ∈ st.singles.get l, recOK st u.1 .waitingSingle l) ∧
    (∀ u ∈ (st.pending.get l).toList, recOK st u.1 .waitingTeamPartner l) ∧
    (∀ t ∈ st.teams.get l, recOK st t.1.1 .waitingAsTeam l ∧ recOK st t.2.1 .waitingAsTeam l) ∧
    (∀ u ∈ st.judges.get l, recOK st u.1 .waitingJudge l)

/-- Every registry record with a waiting status is backed by an entry in
the corresponding structure of its language. -/
def statusToStruct (st : GMState) : Prop :=
  ∀ e ∈ st.reg, lookupReg st.reg e.1 = some e.2 →
    (e.2.status = .waitingSingle → e.1 ∈ idsOf (st.singles.get e.2.gameLang)) ∧
    (e.2.status = .waitingTeamPartner → e.1 ∈ pendingIds (st.pending.get e.2.gameLang)) ∧
    (e.2.status = .waitingAsTeam → e.1 ∈ teamIds (st.teams.get e.2.gameLang)) ∧
    (e.2.status = .waitingJudge → e.1 ∈ idsOf (st.judges.get e.2.gameLang))

/-- The occupancy-exclusivity invariant: no identifier occupies two pool
positions anywhere (across structures and languages), registry keys are
unique, and statuses match structures in both directions. -/
def Consistent (st : GMState) : Prop :=
  (occIds st).Nodup ∧ (regKeys st.reg).Nodup ∧ structToStatus st ∧ statusToStruct st

instance (st : GMState) (u : Nat) (s : Status) (l : Lang) : Decidable (recOK st u s l) := by
  unfold recOK; infer_instance

instance (st : GMState) : Decidable (structToStatus st) := by
  unfold structToStatus; infer_instance

instance (st : GMState) : Decidable (statusToStruct st) := by
  unfold statusToStruct; infer_instance

instance (st : GMState) : Decidable (Consistent st) := by
  unfold Consistent; infer_instance

/-! ## Registry lemmas -/
theorem lookupReg_insertReg (reg : Reg) (u : Nat) (r : Involvement) (v : Nat) :
    lookupReg (insertReg reg u r) v = if v = u then some r else lookupReg reg v := by
  induction reg with
  | nil =>
    simp only [insertReg, lookupReg]
    split_ifs <;> first | rfl | omega
  | cons hd tl ih =>
    obtain ⟨k, w⟩ := hd
    simp only [insertReg]
    by_cases hk : k = u
    · subst hk
      simp only [if_pos rfl, lookupReg]
      split_ifs <;> first | rfl | omega
    · rw [if_neg hk]
      simp only [lookupReg]
      rw [ih]
      split_ifs <;> first | rfl | omega

theorem lookupReg_eq_none (reg : Reg) (u : Nat) (h : u ∉ regKeys reg) :
    lookupReg reg u = none := by
  induction reg with
  | nil => rfl
  | cons hd tl ih =>
    obtain ⟨k, w⟩ := hd
    simp only [regKeys, List.map_cons, List.mem_cons] at h
    push_neg at h
    simp only [lookupReg]
    rw [if_neg (fun hh => h.1 hh.symm)]
    exact ih (by simpa [regKeys] using h.2)

theorem mem_keys_of_lookupReg {reg : Reg} {u : Nat} {r : Involvement}
    (h : lookupReg reg u = some r) : u ∈ regKeys reg := by
  by_contra hmem
  rw [lookupReg_eq_none reg u hmem] at h
  exact Option.noConfusion h

theorem mem_of_lookupReg {reg : Reg} {u : Nat} {r : Involvement}
    (h : lookupReg reg u = some r) : (u, r) ∈ reg := by
  induction reg with
  | nil => exact absurd h (by simp [lookupReg])
  | cons hd tl ih =>
    obtain ⟨k, w⟩ := hd
    by_cases hk : k = u
    · subst hk
      simp [lookupReg] at h
      subst h
      exact List.mem_cons_self _ _
    · simp only [lookupReg, if_neg hk] at h
      simp [ih h]

theorem lookupReg_eraseReg_ne (reg : Reg) (u v : Nat) (h : v ≠ u) :
    lookupReg (eraseReg reg u) v = lookupReg reg v := by
  induction reg with
  | nil => rfl
  | cons hd tl ih =>
    obtain ⟨k, w⟩ := hd
    simp only [eraseReg]
    by_cases hk : k = u
    · subst hk
      rw [if_pos rfl]
      simp only [lookupReg]
      rw [if_neg (fun hh => h hh.symm)]
    · rw [if_neg hk]
      simp only [lookupReg]
      rw [ih]

theorem eraseReg_sublist (reg : Reg) (u : Nat) : (eraseReg reg u).Sublist reg := by
  induction reg with
  | nil => exact List.Sublist.refl _
  | cons hd tl ih =>
    obtain ⟨k, w⟩ := hd
    simp only [eraseReg]
    by_cases hk : k = u
    · rw [if_pos hk]
      exact List.sublist_cons_self _ _
    · rw [if_neg hk]
      exact ih.cons₂ _

theorem regKeys_eraseReg_sublist (reg : Reg) (u : Nat) :
    (regKeys (eraseReg reg u)).Sublist (regKeys reg) :=
  (eraseReg_sublist reg u).map _

theorem lookupReg_eraseReg_self (reg : Reg) (u : Nat) (h : (regKeys reg).Nodup) :
    lookupReg (eraseReg reg u) u = none := by
  induction reg with
  | nil => rfl
  | cons hd tl ih =>
    obtain ⟨k, w⟩ := hd
    simp only [regKeys, List.map_cons, List.nodup_cons] at h
    simp only [eraseReg]
    by_cases hk : k = u
    · subst hk
      rw [if_pos rfl]
      exact lookupReg_eq_none _ _ (by simpa [regKeys] using h.1)
    · rw [if_neg hk]
      simp only [lookupReg]
      rw [if_neg hk]
      exact ih h.2

theorem regKeys_insertReg_of_mem (reg : Reg) (u : Nat) (r : Involvement)
    (h : u ∈ regKeys reg) : regKeys (insertReg reg u r) = regKeys reg := by
  induction reg with
  | nil => simp [regKeys] at h
  | cons hd tl ih =>
    obtain ⟨k, w⟩ := hd
    by_cases hk : k = u
    · subst hk; simp [insertReg, regKeys]
    · have h2 : u ∈ regKeys tl := by
        simp only [regKeys, List.map_cons, List.mem_cons] at h
        rcases h with h | h
        · exact absurd h.symm hk
        · simpa [regKeys] using h
      simp only [insertReg, if_neg hk, regKeys, List.map_cons]
      have hrec := ih h2
      simp only [regKeys] at hrec
      rw [hrec]

theorem regKeys_insertReg_of_not_mem (reg : Reg) (u : Nat) (r : Involvement)
    (h : u ∉ regKeys reg) : regKeys (insertReg reg u r) = regKeys reg ++ [u] := by
  induction reg with
  | nil => simp [insertReg, regKeys]
  | cons hd tl ih =>
    obtain ⟨k, w⟩ := hd
    simp only [regKeys, List.map_cons, List.mem_cons] at h
    push_neg at h
    have hk : ¬(k = u) := fun hh => h.1 hh.symm
    have h2 : u ∉ regKeys tl := by simpa [regKeys] using h.2
    simp only [insertReg, if_neg hk, regKeys, List.map_cons, List.cons_append]
    have hrec := ih h2
    simp only [regKeys] at hrec
    rw [hrec]

theorem regKeys_insertReg_nodup (reg : Reg) (u : Nat) (r : Involvement)
    (h : (regKeys reg).Nodup) : (regKeys (insertReg reg u r)).Nodup := by
  by_cases hm : u ∈ regKeys reg
  · rw [regKeys_insertReg_of_mem reg u r hm]; exact h
  · rw [regKeys_insertReg_of_not_mem reg u r hm]
    simp [List.nodup_append, h, hm]

theorem mem_insertReg {reg : Reg} {u : Nat} {r : Involvement} {e : Nat × Involvement}
    (h : e ∈ insertReg reg u r) : e = (u, r) ∨ e ∈ reg := by
  induction reg with
  | nil =>
    simp only [insertReg, List.mem_singleton] at h
    exact Or.inl h
  | cons hd tl ih =>
    obtain ⟨k, w⟩ := hd
    by_cases hk : k = u
    · subst hk
      have he : insertReg ((k, w) :: tl) k r = (k, r) :: tl := by
        simp [insertReg]
      rw [he] at h
      rcases List.mem_cons.mp h with h | h
      · exact Or.inl h
      · exact Or.inr (List.mem_cons_of_mem _ h)
    · have he : insertReg ((k, w) :: tl) u r = (k, w) :: insertReg tl u r := by
        simp [insertReg, hk]
      rw [he] at h
      rcases List.mem_cons.mp h with h | h
      · exact Or.inr (by simp [h])
      · rcases ih h with h1 | h1
        · exact Or.inl h1
        · exact Or.inr (List.mem_cons_of_mem _ h1)

theorem lookupReg_updateStatus (reg : Reg) (u : Nat) (s : Status) (v : Nat) :
    lookupReg (updateStatus reg u s) v =
      if v = u then (lookupReg reg u).map (fun r => { r with status := s })
      else lookupReg reg v := by
  unfold updateStatus
  cases hu : lookupReg reg u with
  | none =>
    by_cases hv : v = u <;> simp [hv, hu]
  | some r =>
    rw [lookupReg_insertReg]
    by_cases hv : v = u <;> simp [hv, hu]

theorem regKeys_updateStatus (reg : Reg) (u : Nat) (s : Status) :
    regKeys (updateStatus reg u s) = regKeys reg := by
  unfold updateStatus
  cases hu : lookupReg reg u with
  | none => rfl
  | some r => exact regKeys_insertReg_of_mem reg u _ (mem_keys_of_lookupReg hu)

theorem mem_updateStatus {reg : Reg} {u : Nat} {s : Status} {e : Nat × Involvement}
    (h : e ∈ updateStatus reg u s) :
    (∃ r, lookupReg reg u = some r ∧ e = (u, { r with status := s })) ∨ e ∈ reg := by
  unfold updateStatus at h
  cases hu : lookupReg reg u with
  | none => rw [hu] at h; exact Or.inr h
  | some r =>
    rw [hu] at h
    rcases mem_insertReg h with h1 | h1
    · exact Or.inl ⟨r, rfl, h1⟩
    · exact Or.inr h1

/-! ## Per-language table lemmas -/

theorem PerLang.get_set_same {α : Type} (p : PerLang α) (l : Lang) (v : α) :
    (p.set l v).get l = v := by
  cases l <;> rfl

theorem PerLang.get_set_ne {α : Type} (p : PerLang α) (l l2 : Lang) (v : α) (h : l2 ≠ l) :
    (p.set l v).get l2 = p.get l2 := by
  cases l <;> cases l2 <;> first | rfl | exact absurd rfl h

theorem PerLang.set_get_self {α : Type} (p : PerLang α) (l : Lang) :
    p.set l (p.get l) = p := by
  cases l <;> rfl

/-! ## Team-formation loop characterization -/

/-- Two-at-a-time induction on lists. -/
theorem twoStepInduction {α : Type} {P : List α → Prop} (h0 : P []) (h1 : ∀ a, P [a])
    (h2 : ∀ a b l, P l → P (a :: b :: l)) : ∀ l, P l
  | [] => h0
  | [a] => h1 a
  | a :: b :: l => h2 a b l (twoStepInduction h0 h1 h2 l)

/-- Consecutive FIFO pairing of a list of singles: the teams the
`while len >= 2` loop produces, in production order. -/
def pairUp : List UserTuple → List TeamTuple
  | p1 :: p2 :: rest => (p1, p2) :: pairUp rest
  | _ => []

/-- What remains of the singles list after the pairing loop: the empty
list or the single latest arrival. -/
def leftOver : List UserTuple → List UserTuple
  | _ :: _ :: rest => leftOver rest
  | xs => xs

theorem formTeamsLoop_fst (xs : List UserTuple) :
    ∀ ts reg, (formTeamsLoop xs ts reg).1 = leftOver xs := by
  induction xs using twoStepInduction with
  | h0 => intro ts reg; rfl
  | h1 a => intro ts reg; rfl
  | h2 a b l ih =>
    intro ts reg
    simp only [formTeamsLoop, leftOver]
    exact ih _ _

theorem formTeamsLoop_teams (xs : List UserTuple) :
    ∀ ts reg, (formTeamsLoop xs ts reg).2.1 = ts ++ pairUp xs := by
  induction xs using twoStepInduction with
  | h0 => intro ts reg; simp [formTeamsLoop, pairUp]
  | h1 a => intro ts reg; simp [formTeamsLoop, pairUp]
  | h2 a b l ih =>
    intro ts reg
    simp only [formTeamsLoop, pairUp]
    rw [ih]
    simp

theorem teamIds_pairUp_cons (a b : UserTuple) (l : List UserTuple) :
    teamIds (pairUp (a :: b :: l)) = a.1 :: b.1 :: teamIds (pairUp l) := by
  simp [pairUp, teamIds]

theorem setStatus_comp (s : Status) :
    ((fun r : Involvement => { r with status := s }) ∘ fun r : Involvement => { r with status := s }) =
      fun r : Involvement => { r with status := s } := by
  funext r; rfl

theorem map_setStatus_idem (o : Option Involvement) (s : Status) :
    (o.map (fun r => { r with status := s })).map (fun r => { r with status := s }) =
      o.map (fun r => { r with status := s }) := by
  cases o <;> rfl

theorem formTeamsLoop_lookup (xs : List UserTuple) :
    ∀ ts reg v, lookupReg (formTeamsLoop xs ts reg).2.2 v =
      if v ∈ teamIds (pairUp xs) then
        (lookupReg reg v).map (fun r => { r with status := .waitingAsTeam })
      else lookupReg reg v := by
  induction xs using twoStepInduction with
  | h0 => intro ts reg v; simp [formTeamsLoop, pairUp, teamIds]
  | h1 a => intro ts reg v; simp [formTeamsLoop, pairUp, teamIds]
  | h2 a b l ih =>
    intro ts reg v
    simp only [formTeamsLoop]
    rw [ih]
    simp only [lookupReg_updateStatus, teamIds_pairUp_cons, List.mem_cons]
    split_ifs <;> simp_all [map_setStatus_idem, setStatus_comp]

/-! ## Team-formation phase lemmas -/

theorem teamFormation_singles_get (gl : Lang) (st : GMState) :
    (teamFormation gl st).singles.get gl = leftOver (st.singles.get gl) := by
  unfold teamFormation
  simp only [PerLang.get_set_same]
  exact formTeamsLoop_fst _ _ _

theorem teamFormation_teams_get (gl : Lang) (st : GMState) :
    (teamFormation gl st).teams.get gl =
      st.teams.get gl ++ pairUp (st.singles.get gl) := by
  unfold teamFormation
  simp only [PerLang.get_set_same]
  exact formTeamsLoop_teams _ _ _

theorem teamFormation_lookup (gl : Lang) (st : GMState) (v : Nat) :
    lookupReg (teamFormation gl st).reg v =
      if v ∈ teamIds (pairUp (st.singles.get gl)) then
        (lookupReg st.reg v).map (fun r => { r with status := .waitingAsTeam })
      else lookupReg st.reg v := by
  unfold teamFormation
  exact formTeamsLoop_lookup _ _ _ _

theorem teamFormation_singles_get_ne (gl l2 : Lang) (st : GMState) (h : l2 ≠ gl) :
    (teamFormation gl st).singles.get l2 = st.singles.get l2 := by
  unfold teamFormation
  simp only [PerLang.get_set_ne _ _ _ _ h]

theorem teamFormation_teams_get_ne (gl l2 : Lang) (st : GMState) (h : l2 ≠ gl) :
    (teamFormation gl st).teams.get l2 = st.teams.get l2 := by
  unfold teamFormation
  simp only [PerLang.get_set_ne _ _ _ _ h]

theorem teamFormation_pending (gl : Lang) (st : GMState) :
    (teamFormation gl st).pending = st.pending := rfl

theorem teamFormation_judges (gl : Lang) (st : GMState) :
    (teamFormation gl st).judges = st.judges := rfl

theorem teamFormation_rooms (gl : Lang) (st : GMState) :
    (teamFormation gl st).rooms = st.rooms := rfl

/-! ## Claim C6 — occupied joins are rejected without mutation -/

/-- Claim C6: for every state and every participant whose registry record
exists with a status outside the not-occupied set (so any waiting status
or in-game), each of `add_player_single`, `add_player_team` and
`add_judge` returns failure and leaves the entire state — every pool
list, every pending slot, every registry record — exactly unchanged. -/
theorem claim_C6_occupied_joins_rejected (st : GMState) (uid : Nat)
    (username : Option String) (gl : Lang) (ul : String) (inv : Involvement)
    (hrec : lookupReg st.reg uid = some inv)
    (hn : inv.status ≠ .statusNone) (hl : inv.status ≠ .left) :
    addPlayerSingle uid username gl ul st = (st, false) ∧
      addPlayerTeam uid username gl ul st = (st, false) ∧
      addJudge uid username gl ul st = (st, false) := by
  have hocc : isUserOccupied st uid = true := by
    unfold isUserOccupied
    rw [hrec]
    cases hs : inv.status <;> simp_all
  refine ⟨?_, ?_, ?_⟩
  · unfold addPlayerSingle; simp [hocc]
  · unfold addPlayerTeam; simp [hocc]
  · unfold addJudge; simp [hocc]

/-- A concrete state with participant 7 recorded as waiting in the
singles queue, used to witness claim C6. -/
def stC6 : GMState :=
  { singles := ⟨[(7, "g")], []⟩, pending := ⟨none, none⟩, teams := ⟨[], []⟩,
    judges := ⟨[], []⟩, rooms := [],
    reg := [(7, ⟨Lang.en, .player, .waitingSingle, "en"⟩)] }

theorem claim_C6_witness :
    addPlayerSingle 7 none Lang.en "en" stC6 = (stC6, false) ∧
      addPlayerTeam 7 none Lang.en "en" stC6 = (stC6, false) ∧
      addJudge 7 none Lang.en "en" stC6 = (stC6, false) :=
  claim_C6_occupied_joins_rejected stC6 7 none Lang.en "en"
    ⟨Lang.en, .player, .waitingSingle, "en"⟩ (by decide) (by decide) (by decide)

/-! ## Claim C10 — the self-teaming branch is unreachable in consistent states -/

/-- The guard of the "You cannot be your own teammate" rejection in
`add_player_team` (line 101): reached with a positive comparison exactly
when the occupied check passed, a first player is stored in the pending
slot, and its id equals the joiner's id. -/
def selfCheckTriggered (uid : Nat) (gl : Lang) (st : GMState) : Bool :=
  !isUserOccupied st uid &&
    (match st.pending.get gl with
     | some fp => fp.1 == uid
     | none => false)

/-- Claim C10: in any state where the participant stored in a language's
pending-partner slot has registry status `waiting_team_partner` (as the
occupancy invariant requires), that participant calling
`add_player_team` is rejected by the earlier `is_user_occupied` check,
so the same-person comparison can never be triggered. -/
theorem claim_C10_self_teaming_unreachable (st : GMState) (gl : Lang) (p : UserTuple)
    (inv : Involvement) (username : Option String) (ul : String)
    (hp : st.pending.get gl = some p)
    (hrec : lookupReg st.reg p.1 = some inv)
    (hst : inv.status = .waitingTeamPartner) :
    isUserOccupied st p.1 = true ∧ selfCheckTriggered p.1 gl st = false ∧
      addPlayerTeam p.1 username gl ul st = (st, false) := by
  have hocc : isUserOccupied st p.1 = true := by
    unfold isUserOccupied
    rw [hrec]
    simp [hst]
  refine ⟨hocc, ?_, ?_⟩
  · unfold selfCheckTriggered
    rw [hocc]
    rfl
  · unfold addPlayerTeam
    simp [hocc]

/-- A concrete state whose pending slot holds participant 3 with a
matching `waiting_team_partner` record, used to witness claim C10. -/
def stC10 : GMState :=
  { singles := ⟨[], []⟩, pending := ⟨some (3, "c"), none⟩, teams := ⟨[], []⟩,
    judges := ⟨[], []⟩, rooms := [],
    reg := [(3, ⟨Lang.en, .player, .waitingTeamPartner, "en"⟩)] }

theorem claim_C10_witness :
    isUserOccupied stC10 3 = true ∧ selfCheckTriggered 3 Lang.en stC10 = false ∧
      addPlayerTeam 3 none Lang.en "en" stC10 = (stC10, false) :=
  claim_C10_self_teaming_unreachable stC10 Lang.en (3, "c")
    ⟨Lang.en, .player, .waitingTeamPartner, "en"⟩ none "en" (by decide) (by decide) (by decide)

/-! ## Claim C2 — rollback on resource failure -/

/-- Claim C2: from any pool state with at least `TEAMS_PER_ROOM` formed
teams and at least `JUDGES_PER_ROOM` judges in a language, a matchmaking
pass whose external meeting-resource creation returns no usable link
leaves the state exactly equal to the pre-reservation state (the state
after team formation): the reserved teams and judge are prepended back
to the front of their pools in original relative order, so the pools
equal their pre-reservation contents, and the registry — hence every
reserved participant's waiting status — is unchanged. -/
theorem claim_C2_rollback_on_failure (gl : Lang) (st : GMState)
    (ht : TEAMS_PER_ROOM ≤ (st.teams.get gl).length)
    (hj : JUDGES_PER_ROOM ≤ (st.judges.get gl).length) :
    tryMatchmakePass none gl st = teamFormation gl st := by
  have hts : TEAMS_PER_ROOM ≤ ((teamFormation gl st).teams.get gl).length := by
    rw [teamFormation_teams_get, List.length_append]
    omega
  have hjeq : (teamFormation gl st).judges = st.judges := teamFormation_judges gl st
  have hjs : JUDGES_PER_ROOM ≤ ((teamFormation gl st).judges.get gl).length := by
    rw [hjeq]; exact hj
  show roomFormation none gl (teamFormation gl st) = teamFormation gl st
  set st1 := teamFormation gl st with hst1
  simp only [roomFormation]
  rw [if_pos ⟨hts, hjs⟩]
  cases hjl : st1.judges.get gl with
  | nil => rfl
  | cons judge rest =>
    simp only
    rw [List.take_append_drop, ← hjl, PerLang.set_get_self, PerLang.set_get_self]

/-- A concrete state with four formed teams and one judge (all with
matching records), used to witness claim C2. -/
def stC2 : GMState :=
  { singles := ⟨[], []⟩, pending := ⟨none, none⟩,
    teams := ⟨[((1, "a"), (2, "b")), ((3, "c"), (4, "d")),
               ((5, "e"), (6, "f")), ((7, "g"), (8, "h"))], []⟩,
    judges := ⟨[(9, "j")], []⟩, rooms := [],
    reg := [(1, ⟨Lang.en, .player, .waitingAsTeam, "en"⟩),
            (2, ⟨Lang.en, .player, .waitingAsTeam, "en"⟩),
            (3, ⟨Lang.en, .player, .waitingAsTeam, "en"⟩),
            (4, ⟨Lang.en, .player, .waitingAsTeam, "en"⟩),
            (5, ⟨Lang.en, .player, .waitingAsTeam, "en"⟩),
            (6, ⟨Lang.en, .player, .waitingAsTeam, "en"⟩),
            (7, ⟨Lang.en, .player, .waitingAsTeam, "en"⟩),
            (8, ⟨Lang.en, .player, .waitingAsTeam, "en"⟩),
            (9, ⟨Lang.en, .judge, .waitingJudge, "en"⟩)] }

theorem claim_C2_witness :
    tryMatchmakePass none Lang.en stC2 = teamFormation Lang.en stC2 :=
  claim_C2_rollback_on_failure Lang.en stC2 (by decide) (by decide)

/-! ## Claim C8 — the matchmaking pass never touches the pending-partner slot -/

theorem teamFormation_pending_subst (gl : Lang) (st : GMState)
    (p : PerLang (Option UserTuple)) :
    teamFormation gl { st with pending := p } =
      { teamFormation gl st with pending := p } := rfl

theorem roomFormation_pending_subst (res : Option (String × String)) (gl : Lang)
    (st : GMState) (p : PerLang (Option UserTuple)) :
    roomFormation res gl { st with pending := p } =
      { roomFormation res gl st with pending := p } := by
  obtain ⟨s, pe, t, j, ro, re⟩ := st
  simp only [roomFormation]
  split_ifs with h
  · cases hjl : PerLang.get j gl with
    | nil => rfl
    | cons judge rest => cases res <;> rfl
  · rfl

/-- Claim C8: the matchmaking pass neither reads nor modifies the
pending-partner (`waiting_team_first_player`) slots: its result on a
state with the pending table replaced by any `p` equals its result on
the original state with the pending table replaced by the same `p` (so
no branch of the pass depends on, pairs with, or consumes a pending
half-team), and the pass leaves the pending table unchanged; moreover
`add_player_single` and `add_judge` also leave the pending table
unchanged — only `add_player_team` and `remove_user_from_queues`
change that slot. -/
theorem claim_C8_pending_partner_frame (res : Option (String × String)) (gl : Lang)
    (st : GMState) (p : PerLang (Option UserTuple)) (uid : Nat)
    (username : Option String) (ul : String) :
    tryMatchmakePass res gl { st with pending := p } =
        { tryMatchmakePass res gl st with pending := p } ∧
      (tryMatchmakePass res gl st).pending = st.pending ∧
      (addPlayerSingle uid username gl ul st).1.pending = st.pending ∧
      (addJudge uid username gl ul st).1.pending = st.pending := by
  refine ⟨?_, ?_, ?_, ?_⟩
  · show roomFormation res gl (teamFormation gl { st with pending := p }) = _
    rw [teamFormation_pending_subst, roomFormation_pending_subst]
    rfl
  · show (roomFormation res gl (teamFormation gl st)).pending = st.pending
    have h1 : (teamFormation gl st).pending = st.pending := teamFormation_pending gl st
    have h2 := roomFormation_pending_subst res gl (teamFormation gl st)
      ((teamFormation gl st).pending)
    calc (roomFormation res gl (teamFormation gl st)).pending
        = (roomFormation res gl { teamFormation gl st with
            pending := (teamFormation gl st).pending }).pending := by rfl
      _ = st.pending := by rw [h2]; exact h1
  · unfold addPlayerSingle
    split <;> rfl
  · unfold addJudge
    split <;> rfl

/-! ## Claim C7 — FIFO team formation -/

theorem leftOver_length_le (xs : List UserTuple) : (leftOver xs).length ≤ 1 := by
  induction xs using twoStepInduction with
  | h0 => simp [leftOver]
  | h1 a => simp [leftOver]
  | h2 a b l ih => simpa [leftOver] using ih

theorem leftOver_getLast (xs : List UserTuple) :
    ∀ u ∈ leftOver xs, xs.getLast? = some u := by
  induction xs using twoStepInduction with
  | h0 => intro u hu; simp [leftOver] at hu
  | h1 a => intro u hu; simp [leftOver] at hu; simp [hu]
  | h2 a b l ih =>
    intro u hu
    simp only [leftOver] at hu
    have hlast := ih u hu
    cases l with
    | nil => simp [leftOver] at hu
    | cons c l2 =>
      rw [List.getLast?_cons_cons, List.getLast?_cons_cons]
      exact hlast

theorem mem_teamIds_pairUp (xs : List UserTuple) :
    ∀ v ∈ teamIds (pairUp xs), ∃ u ∈ xs, u.1 = v := by
  induction xs using twoStepInduction with
  | h0 => intro v hv; simp [pairUp, teamIds] at hv
  | h1 a => intro v hv; simp [pairUp, teamIds] at hv
  | h2 a b l ih =>
    intro v hv
    rw [teamIds_pairUp_cons] at hv
    simp only [List.mem_cons] at hv
    rcases hv with h | h | h
    · exact ⟨a, by simp, h.symm⟩
    · exact ⟨b, by simp, h.symm⟩
    · obtain ⟨u, hu, he⟩ := ih v h
      exact ⟨u, by simp [hu], he⟩

/-- Claim C7: one team-formation pass on a singles list `xs` appends to
`formedTeams` exactly the consecutive FIFO pairs `pairUp xs` — for
arrivals A, B, C, D the teams (A,B) then (C,D), never (A,C) — sets both
members of each produced pair to status `waiting_as_team`, and leaves
the singles list holding at most one participant, namely the
latest-arrived one. -/
theorem claim_C7_fifo_team_formation (gl : Lang) (st : GMState) (xs : List UserTuple)
    (hxs : st.singles.get gl = xs)
    (hrec : ∀ u ∈ xs, (lookupReg st.reg u.1).isSome = true) :
    (teamFormation gl st).teams.get gl = st.teams.get gl ++ pairUp xs ∧
      (teamFormation gl st).singles.get gl = leftOver xs ∧
      (leftOver xs).length ≤ 1 ∧
      (∀ u ∈ leftOver xs, xs.getLast? = some u) ∧
      (∀ v ∈ teamIds (pairUp xs),
        (lookupReg (teamFormation gl st).reg v).map (·.status) =
          some .waitingAsTeam) := by
  subst hxs
  refine ⟨teamFormation_teams_get gl st, teamFormation_singles_get gl st,
    leftOver_length_le _, leftOver_getLast _, ?_⟩
  intro v hv
  rw [teamFormation_lookup, if_pos hv]
  obtain ⟨u, hu, he⟩ := mem_teamIds_pairUp _ v hv
  have hs := hrec u hu
  subst he
  cases hl : lookupReg st.reg u.1 with
  | none => rw [hl] at hs; simp at hs
  | some r => simp

/-- A concrete state with four waiting singles A, B, C, D, used to
witness claim C7. -/
def stC7 : GMState :=
  { singles := ⟨[(1, "A"), (2, "B"), (3, "C"), (4, "D")], []⟩,
    pending := ⟨none, none⟩, teams := ⟨[], []⟩, judges := ⟨[], []⟩, rooms := [],
    reg := [(1, ⟨Lang.en, .player, .waitingSingle, "en"⟩),
            (2, ⟨Lang.en, .player, .waitingSingle, "en"⟩),
            (3, ⟨Lang.en, .player, .waitingSingle, "en"⟩),
            (4, ⟨Lang.en, .player, .waitingSingle, "en"⟩)] }

theorem claim_C7_witness :
    (teamFormation Lang.en stC7).teams.get Lang.en =
        stC7.teams.get Lang.en ++ pairUp (stC7.singles.get Lang.en) ∧
      (teamFormation Lang.en stC7).singles.get Lang.en =
        leftOver (stC7.singles.get Lang.en) ∧
      (leftOver (stC7.singles.get Lang.en)).length ≤ 1 ∧
      (∀ u ∈ leftOver (stC7.singles.get Lang.en),
        (stC7.singles.get Lang.en).getLast? = some u) ∧
      (∀ v ∈ teamIds (pairUp (stC7.singles.get Lang.en)),
        (lookupReg (teamFormation Lang.en stC7).reg v).map (·.status) =
          some .waitingAsTeam) :=
  claim_C7_fifo_team_formation Lang.en stC7 (stC7.singles.get Lang.en) rfl (by decide)

/-! ## Claim C5 — pass re-entry idempotence (corrected) -/

theorem roomFormation_below_threshold (res : Option (String × String)) (gl : Lang)
    (st : GMState)
    (h : ¬(TEAMS_PER_ROOM ≤ (st.teams.get gl).length ∧
        JUDGES_PER_ROOM ≤ (st.judges.get gl).length)) :
    roomFormation res gl st = st := by
  simp only [roomFormation]
  rw [if_neg h]

theorem pass_of_no_attempt (res : Option (String × String)) (gl : Lang) (st : GMState)
    (h : ¬attemptsCreation gl st) :
    tryMatchmakePass res gl st = teamFormation gl st := by
  unfold tryMatchmakePass
  unfold attemptsCreation at h
  exact roomFormation_below_threshold res gl _ h

/-- A concrete state with exactly four formed teams and one judge: a
matchmaking pass on it with a failing resource creation restores the
state exactly (rollback), yet the pass did reserve and attempt an
external resource creation, and a re-run with a successful creation
mutates the pools — refuting claim C5 as stated. -/
def stC5 : GMState :=
  { singles := ⟨[], []⟩, pending := ⟨none, none⟩,
    teams := ⟨[((1, "a"), (2, "b")), ((3, "c"), (4, "d")),
               ((5, "e"), (6, "f")), ((7, "g"), (8, "h"))], []⟩,
    judges := ⟨[(9, "j")], []⟩, rooms := [],
    reg := [(1, ⟨Lang.en, .player, .waitingAsTeam, "en"⟩),
            (2, ⟨Lang.en, .player, .waitingAsTeam, "en"⟩),
            (3, ⟨Lang.en, .player, .waitingAsTeam, "en"⟩),
            (4, ⟨Lang.en, .player, .waitingAsTeam, "en"⟩),
            (5, ⟨Lang.en, .player, .waitingAsTeam, "en"⟩),
            (6, ⟨Lang.en, .player, .waitingAsTeam, "en"⟩),
            (7, ⟨Lang.en, .player, .waitingAsTeam, "en"⟩),
            (8, ⟨Lang.en, .player, .waitingAsTeam, "en"⟩),
            (9, ⟨Lang.en, .judge, .waitingJudge, "en"⟩)] }

/-- Claim C5 as stated is false: on `stC5` the failing-creation pass
leaves the pool state unchanged, yet the pass attempts an external
resource creation (so a re-run performs a reservation and another
attempt, and a re-run with a successful creation even mutates the
pools). -/
theorem claim_C5_counterexample :
    tryMatchmakePass none Lang.en stC5 = stC5 ∧
      attemptsCreation Lang.en stC5 ∧
      tryMatchmakePass (some ("evt00000", "uri")) Lang.en stC5 ≠ stC5 := by
  decide

/-- Claim C5 (amended): if a matchmaking pass performs no external
resource-creation attempt (the room threshold is not met after team
formation) and leaves the pool state unchanged, then re-running the
pass on that state performs no action: no pool mutation (the state is a
fixed point, whatever the oracle would answer) and, by the same
unchanged threshold test, no reservation and no creation attempt. -/
theorem claim_C5_amended_reentry_idempotence (gl : Lang) (st : GMState)
    (res res2 : Option (String × String))
    (hna : ¬attemptsCreation gl st)
    (hfix : tryMatchmakePass res gl st = st) :
    tryMatchmakePass res2 gl st = st ∧ ¬attemptsCreation gl st := by
  refine ⟨?_, hna⟩
  rw [pass_of_no_attempt res2 gl st hna]
  rw [pass_of_no_attempt res gl st hna] at hfix
  exact hfix

theorem claim_C5_amended_witness :
    tryMatchmakePass (some ("evt00000", "uri")) Lang.en initialState = initialState ∧
      ¬attemptsCreation Lang.en initialState :=
  claim_C5_amended_reentry_idempotence Lang.en initialState none (some ("evt00000", "uri"))
    (by decide) (by decide)

/-! ## findTeamWithMate lemmas -/

theorem teamIds_append (a b : List TeamTuple) :
    teamIds (a ++ b) = teamIds a ++ teamIds b := by
  simp [teamIds]

theorem teamIds_cons (p1 p2 : UserTuple) (tl : List TeamTuple) :
    teamIds ((p1, p2) :: tl) = p1.1 :: p2.1 :: teamIds tl := by
  simp [teamIds]

theorem mem_teamIds_fst {t : TeamTuple} {ts : List TeamTuple} (h : t ∈ ts) :
    t.1.1 ∈ teamIds ts := by
  simp only [teamIds, List.mem_flatMap]
  exact ⟨t, h, by simp⟩

theorem mem_teamIds_snd {t : TeamTuple} {ts : List TeamTuple} (h : t ∈ ts) :
    t.2.1 ∈ teamIds ts := by
  simp only [teamIds, List.mem_flatMap]
  exact ⟨t, h, by simp⟩

theorem eraseIdx_append_cons {α : Type} (pre : List α) (t : α) (post : List α) :
    (pre ++ t :: post).eraseIdx pre.length = pre ++ post := by
  induction pre with
  | nil => rfl
  | cons a l ih => simpa [List.eraseIdx] using ih

theorem findTeamWithMate_spec (u : Nat) :
    ∀ (ts : List TeamTuple) (i : Nat) (m : UserTuple),
      findTeamWithMate u ts = some (i, m) →
      ∃ pre t post, ts = pre ++ t :: post ∧ pre.length = i ∧ u ∉ teamIds pre ∧
        ((t.1.1 = u ∧ m = t.2) ∨ (t.1.1 ≠ u ∧ t.2.1 = u ∧ m = t.1)) := by
  intro ts
  induction ts with
  | nil => intro i m h; simp [findTeamWithMate] at h
  | cons hd tl ih =>
    intro i m h
    obtain ⟨p1, p2⟩ := hd
    by_cases h1 : p1.1 = u
    · rw [findTeamWithMate, if_pos h1] at h
      obtain ⟨hi, hm⟩ := Prod.mk.injEq .. ▸ Option.some.inj h
      exact ⟨[], (p1, p2), tl, by simp, by simp [hi], by simp [teamIds],
        Or.inl ⟨h1, hm.symm⟩⟩
    · by_cases h2 : p2.1 = u
      · rw [findTeamWithMate, if_neg h1, if_pos h2] at h
        obtain ⟨hi, hm⟩ := Prod.mk.injEq .. ▸ Option.some.inj h
        exact ⟨[], (p1, p2), tl, by simp, by simp [hi], by simp [teamIds],
          Or.inr ⟨h1, h2, hm.symm⟩⟩
      · rw [findTeamWithMate, if_neg h1, if_neg h2] at h
        cases hf : findTeamWithMate u tl with
        | none => rw [hf] at h; exact absurd h (by simp)
        | some im =>
          obtain ⟨i2, m2⟩ := im
          rw [hf] at h
          obtain ⟨hi, hm⟩ := Prod.mk.injEq .. ▸ Option.some.inj h
          obtain ⟨pre, t, post, he, hlen, hnm, hcase⟩ := ih i2 m2 hf
          refine ⟨(p1, p2) :: pre, t, post, by simp [he], by simp [hlen, hi], ?_, ?_⟩
          · rw [teamIds_cons]
            simp only [List.mem_cons]
            push_neg
            exact ⟨fun hh => h1 hh.symm, fun hh => h2 hh.symm, hnm⟩
          · rw [hm] at hcase
            exact hcase

theorem findTeamWithMate_isSome_of_mem (u : Nat) :
    ∀ ts : List TeamTuple, u ∈ teamIds ts → (findTeamWithMate u ts).isSome = true := by
  intro ts
  induction ts with
  | nil => intro h; simp [teamIds] at h
  | cons hd tl ih =>
    obtain ⟨p1, p2⟩ := hd
    intro h
    by_cases h1 : p1.1 = u
    · simp [findTeamWithMate, h1]
    · by_cases h2 : p2.1 = u
      · simp [findTeamWithMate, h1, h2]
      · have hmem : u ∈ teamIds tl := by
          rw [teamIds_cons] at h
          simp only [List.mem_cons] at h
          rcases h with h | h | h
          · exact absurd h.symm h1
          · exact absurd h.symm h2
          · exact h
        have hs := ih hmem
        rw [findTeamWithMate, if_neg h1, if_neg h2]
        cases hf : findTeamWithMate u tl with
        | none => rw [hf] at hs; simp at hs
        | some im => obtain ⟨i, m⟩ := im; simp

theorem findTeamWithMate_of_nodup_mem (ts : List TeamTuple) (u1 u2 : Nat) (n1 n2 : String)
    (hnd : (teamIds ts).Nodup) (hmem : ((u1, n1), (u2, n2)) ∈ ts) :
    ∃ pre post, ts = pre ++ ((u1, n1), (u2, n2)) :: post ∧
      findTeamWithMate u1 ts = some (pre.length, (u2, n2)) ∧
      ts.eraseIdx pre.length = pre ++ post := by
  have hu1 : u1 ∈ teamIds ts := mem_teamIds_fst hmem
  have hsome := findTeamWithMate_isSome_of_mem u1 ts hu1
  cases hf : findTeamWithMate u1 ts with
  | none => rw [hf] at hsome; simp at hsome
  | some im =>
    obtain ⟨i, m⟩ := im
    obtain ⟨pre, t, post, he, hlen, hpre, hcase⟩ := findTeamWithMate_spec u1 ts i m hf
    subst he
    rcases List.mem_append.mp hmem with hin | hin
    · exact absurd (mem_teamIds_fst hin) hpre
    · rcases List.mem_cons.mp hin with heq | hin2
      · subst heq
        rcases hcase with ⟨ht1, hm⟩ | ⟨hne, ht2, hm⟩
        · subst hm
          refine ⟨pre, post, rfl, ?_, eraseIdx_append_cons pre _ post⟩
          rw [hlen]
        · exact absurd rfl hne
      · exfalso
        have hnd2 : (teamIds (t :: post)).Nodup := by
          rw [teamIds_append] at hnd
          exact hnd.of_append_right
        obtain ⟨t1, t2⟩ := t
        rw [teamIds_cons] at hnd2
        rcases hcase with ⟨ht1, _⟩ | ⟨_, ht2, _⟩
        · have : u1 ∈ teamIds post := mem_teamIds_fst hin2
          rw [← ht1] at this
          simp only [List.nodup_cons, List.mem_cons] at hnd2
          exact hnd2.1 (Or.inr this)
        · have : u1 ∈ teamIds post := mem_teamIds_fst hin2
          rw [← ht2] at this
          simp only [List.nodup_cons, List.mem_cons] at hnd2
          exact hnd2.2.1 this

/-! ## removeUserFromQueues branch lemmas -/

theorem remove_eq_of_no_record (st : GMState) (uid : Nat)
    (h : lookupReg st.reg uid = none) :
    removeUserFromQueues uid st = (st, false) := by
  unfold removeUserFromQueues
  rw [h]

theorem remove_eq_waitingSingle (st : GMState) (uid : Nat) (inv : Involvement)
    (h : lookupReg st.reg uid = some inv) (hs : inv.status = .waitingSingle) :
    removeUserFromQueues uid st =
      ({ st with
          reg := eraseReg st.reg uid,
          singles := st.singles.set inv.gameLang
            ((st.singles.get inv.gameLang).filter (fun u => u.1 ≠ uid)) }, true) := by
  simp only [removeUserFromQueues, h]
  rw [hs]

theorem remove_eq_waitingJudge (st : GMState) (uid : Nat) (inv : Involvement)
    (h : lookupReg st.reg uid = some inv) (hs : inv.status = .waitingJudge) :
    removeUserFromQueues uid st =
      ({ st with
          reg := eraseReg st.reg uid,
          judges := st.judges.set inv.gameLang
            ((st.judges.get inv.gameLang).filter (fun u => u.1 ≠ uid)) }, true) := by
  simp only [removeUserFromQueues, h]
  rw [hs]

theorem remove_eq_inGame (st : GMState) (uid : Nat) (inv : Involvement) (r : String)
    (h : lookupReg st.reg uid = some inv) (hs : inv.status = .inGame r) :
    removeUserFromQueues uid st =
      ({ st with reg := insertReg (eraseReg st.reg uid) uid ⟨inv.gameLang, inv.role, .inGame r, inv.uiLang⟩ }, false) := by
  simp only [removeUserFromQueues, h]
  rw [hs]

theorem remove_eq_statusNone (st : GMState) (uid : Nat) (inv : Involvement)
    (h : lookupReg st.reg uid = some inv) (hs : inv.status = .statusNone) :
    removeUserFromQueues uid st = ({ st with reg := eraseReg st.reg uid }, false) := by
  simp only [removeUserFromQueues, h]
  rw [hs]

theorem remove_eq_left (st : GMState) (uid : Nat) (inv : Involvement)
    (h : lookupReg st.reg uid = some inv) (hs : inv.status = .left) :
    removeUserFromQueues uid st = ({ st with reg := eraseReg st.reg uid }, false) := by
  simp only [removeUserFromQueues, h]
  rw [hs]

theorem remove_eq_waitingTeamPartner_hit (st : GMState) (uid : Nat) (inv : Involvement)
    (p : UserTuple)
    (h : lookupReg st.reg uid = some inv) (hs : inv.status = .waitingTeamPartner)
    (hp : st.pending.get inv.gameLang = some p) (hpu : p.1 = uid) :
    removeUserFromQueues uid st =
      ({ st with
          reg := eraseReg st.reg uid,
          pending := st.pending.set inv.gameLang none }, true) := by
  simp only [removeUserFromQueues, h]
  rw [hs]
  dsimp only
  rw [hp]
  dsimp only
  rw [if_pos hpu]

theorem remove_eq_waitingAsTeam_found (st : GMState) (uid : Nat) (inv : Involvement)
    (i : Nat) (mate : UserTuple) (mateInv : Involvement)
    (h : lookupReg st.reg uid = some inv) (hs : inv.status = .waitingAsTeam)
    (hfind : findTeamWithMate uid (st.teams.get inv.gameLang) = some (i, mate))
    (hmate : lookupReg (eraseReg st.reg uid) mate.1 = some mateInv) :
    removeUserFromQueues uid st =
      ({ st with
          reg := insertReg (eraseReg st.reg uid) mate.1
            { mateInv with status := .waitingSingle },
          teams := st.teams.set inv.gameLang
            ((st.teams.get inv.gameLang).eraseIdx i),
          singles := st.singles.set inv.gameLang
            (st.singles.get inv.gameLang ++ [mate]) }, true) := by
  simp only [removeUserFromQueues, h]
  rw [hs]
  dsimp only
  rw [hfind]
  dsimp only
  rw [hmate]

theorem remove_eq_waitingAsTeam_noMate (st : GMState) (uid : Nat) (inv : Involvement)
    (i : Nat) (mate : UserTuple)
    (h : lookupReg st.reg uid = some inv) (hs : inv.status = .waitingAsTeam)
    (hfind : findTeamWithMate uid (st.teams.get inv.gameLang) = some (i, mate))
    (hmate : lookupReg (eraseReg st.reg uid) mate.1 = none) :
    removeUserFromQueues uid st =
      ({ st with
          reg := eraseReg st.reg uid,
          teams := st.teams.set inv.gameLang
            ((st.teams.get inv.gameLang).eraseIdx i) }, true) := by
  simp only [removeUserFromQueues, h]
  rw [hs]
  dsimp only
  rw [hfind]
  dsimp only
  rw [hmate]

/-! ## Consistency accessors -/

theorem recOK_elim {st : GMState} {u : Nat} {s : Status} {l : Lang}
    (h : recOK st u s l) :
    ∃ inv, lookupReg st.reg u = some inv ∧ inv.status = s ∧ inv.gameLang = l := by
  obtain ⟨h1, h2⟩ := h
  cases hl : lookupReg st.reg u with
  | none => rw [hl] at h1; simp at h1
  | some inv =>
    rw [hl] at h1 h2
    simp at h1 h2
    exact ⟨inv, rfl, h1, h2⟩

theorem langIds_sublist_occIds (st : GMState) (l : Lang) :
    (langIds st l).Sublist (occIds st) := by
  cases l
  · exact List.sublist_append_left _ _
  · exact List.sublist_append_right _ _

theorem singlesIds_sublist_langIds (st : GMState) (l : Lang) :
    (idsOf (st.singles.get l)).Sublist (langIds st l) :=
  ((List.sublist_append_left _ _).trans (List.sublist_append_left _ _)).trans
    (List.sublist_append_left _ _)

theorem pendingIds_sublist_langIds (st : GMState) (l : Lang) :
    (pendingIds (st.pending.get l)).Sublist (langIds st l) :=
  ((List.sublist_append_right _ _).trans (List.sublist_append_left _ _)).trans
    (List.sublist_append_left _ _)

theorem teamIds_sublist_langIds (st : GMState) (l : Lang) :
    (teamIds (st.teams.get l)).Sublist (langIds st l) :=
  (List.sublist_append_right _ _).trans (List.sublist_append_left _ _)

theorem judgeIds_sublist_langIds (st : GMState) (l : Lang) :
    (idsOf (st.judges.get l)).Sublist (langIds st l) :=
  List.sublist_append_right _ _

theorem teamIds_nodup_of_occIds {st : GMState} (h : (occIds st).Nodup) (l : Lang) :
    (teamIds (st.teams.get l)).Nodup :=
  ((teamIds_sublist_langIds st l).trans (langIds_sublist_occIds st l)).nodup h

theorem mem_teamIds_elim {u : Nat} {ts : List TeamTuple} (h : u ∈ teamIds ts) :
    ∃ t ∈ ts, t.1.1 = u ∨ t.2.1 = u := by
  simp only [teamIds, List.mem_flatMap] at h
  obtain ⟨t, ht, hm⟩ := h
  rcases List.mem_cons.mp hm with hm | hm
  · exact ⟨t, ht, Or.inl hm.symm⟩
  · rcases List.mem_cons.mp hm with hm | hm
    · exact ⟨t, ht, Or.inr hm.symm⟩
    · exact absurd hm (List.not_mem_nil _)

theorem mem_pendingIds_elim {u : Nat} {p : Option UserTuple} (h : u ∈ pendingIds p) :
    ∃ ut, p = some ut ∧ ut.1 = u := by
  cases p with
  | none => simp [pendingIds] at h
  | some ut =>
    simp only [pendingIds, Option.toList_some, List.map_cons, List.map_nil,
      List.mem_singleton] at h
    exact ⟨ut, rfl, h.symm⟩

theorem occupied_of_recOK {st : GMState} {u : Nat} {s : Status} {l : Lang}
    (h : recOK st u s l) (hn : s ≠ .statusNone) (hl : s ≠ .left) :
    isUserOccupied st u = true := by
  obtain ⟨inv, hlk, hst, _⟩ := recOK_elim h
  unfold isUserOccupied
  rw [hlk]
  cases hss : inv.status <;> simp_all

theorem occupied_of_mem_langIds {st : GMState} (hS : structToStatus st) {u : Nat} {l : Lang}
    (h : u ∈ langIds st l) : isUserOccupied st u = true := by
  obtain ⟨hsg, hpd, htm, hjd⟩ := hS l
  unfold langIds at h
  rcases List.mem_append.mp h with h | hJ
  · rcases List.mem_append.mp h with h | hT
    · rcases List.mem_append.mp h with hSg | hP
      · obtain ⟨ut, hut, he⟩ := List.mem_map.mp hSg
        exact he ▸ occupied_of_recOK (hsg ut hut) (by simp) (by simp)
      · obtain ⟨ut, hpe, he⟩ := mem_pendingIds_elim hP
        have := hpd ut (by simp [hpe])
        exact he ▸ occupied_of_recOK this (by simp) (by simp)
    · obtain ⟨t, ht, hcase⟩ := mem_teamIds_elim hT
      rcases hcase with he | he
      · exact he ▸ occupied_of_recOK (htm t ht).1 (by simp) (by simp)
      · exact he ▸ occupied_of_recOK (htm t ht).2 (by simp) (by simp)
  · obtain ⟨ut, hut, he⟩ := List.mem_map.mp hJ
    exact he ▸ occupied_of_recOK (hjd ut hut) (by simp) (by simp)

theorem occupied_of_mem_occIds {st : GMState} (hS : structToStatus st) {u : Nat}
    (h : u ∈ occIds st) : isUserOccupied st u = true := by
  rcases List.mem_append.mp h with h | h
  · exact occupied_of_mem_langIds hS h
  · exact occupied_of_mem_langIds hS h

theorem not_mem_occIds {st : GMState} (hS : structToStatus st) {u : Nat}
    (h : isUserOccupied st u = false) : u ∉ occIds st := by
  intro hmem
  rw [occupied_of_mem_occIds hS hmem] at h
  exact Bool.noConfusion h

/-! ## The departure cascade -/

theorem remove_cascade_spec (st : GMState) (gl : Lang) (u1 u2 : Nat) (n1 n2 : String)
    (hC : Consistent st) (hmem : ((u1, n1), (u2, n2)) ∈ st.teams.get gl) :
    ∃ pre post inv2,
      st.teams.get gl = pre ++ ((u1, n1), (u2, n2)) :: post ∧
      lookupReg st.reg u2 = some inv2 ∧ inv2.status = .waitingAsTeam ∧
      inv2.gameLang = gl ∧ u1 ≠ u2 ∧
      removeUserFromQueues u1 st =
        ({ st with
            reg := insertReg (eraseReg st.reg u1) u2 { inv2 with status := .waitingSingle },
            teams := st.teams.set gl (pre ++ post),
            singles := st.singles.set gl (st.singles.get gl ++ [(u2, n2)]) }, true) := by
  obtain ⟨hnodup, hkeys, hS, hT⟩ := hC
  obtain ⟨_, _, htm, _⟩ := hS gl
  obtain ⟨inv1, hl1, hst1, hlang1⟩ := recOK_elim (htm _ hmem).1
  obtain ⟨inv2, hl2, hst2, hlang2⟩ := recOK_elim (htm _ hmem).2
  have hnd : (teamIds (st.teams.get gl)).Nodup := teamIds_nodup_of_occIds hnodup gl
  have hne : u1 ≠ u2 := by
    obtain ⟨pre0, post0, hdec0⟩ := List.append_of_mem hmem
    rw [hdec0, teamIds_append, teamIds_cons] at hnd
    have h2 := hnd.of_append_right
    simp only [List.nodup_cons, List.mem_cons] at h2
    intro hh
    exact h2.1 (Or.inl hh)
  obtain ⟨pre, post, hdec, hfind, herase⟩ :=
    findTeamWithMate_of_nodup_mem _ u1 u2 n1 n2 hnd hmem
  have hmate : lookupReg (eraseReg st.reg u1) u2 = some inv2 := by
    rw [lookupReg_eraseReg_ne _ _ _ (Ne.symm hne)]
    exact hl2
  refine ⟨pre, post, inv2, hdec, hl2, hst2, hlang2, hne, ?_⟩
  have hrm := remove_eq_waitingAsTeam_found st u1 inv1 pre.length (u2, n2) inv2 hl1 hst1
    (by rw [hlang1]; exact hfind) (by exact hmate)
  rw [hrm, hlang1]
  rw [herase]

/-- Claim C3: in a consistent state where participants U1 and U2 form a
team in a language's `formedTeams`, `remove_user_from_queues(U1)`
removes that whole team, appends U2 to the language's singles list,
resets U2's registry status to `waiting_single`, deletes U1's registry
record, and returns success.  (Consistency makes U1's status
`waiting_as_team` and guarantees U2's record exists, as the spec's
global invariant requires.) -/
theorem claim_C3_departure_cascade (st : GMState) (gl : Lang) (u1 u2 : Nat)
    (n1 n2 : String)
    (hC : Consistent st) (hmem : ((u1, n1), (u2, n2)) ∈ st.teams.get gl) :
    ∃ pre post,
      st.teams.get gl = pre ++ ((u1, n1), (u2, n2)) :: post ∧
      (removeUserFromQueues u1 st).2 = true ∧
      (removeUserFromQueues u1 st).1.teams.get gl = pre ++ post ∧
      (removeUserFromQueues u1 st).1.singles.get gl =
        st.singles.get gl ++ [(u2, n2)] ∧
      (lookupReg (removeUserFromQueues u1 st).1.reg u2).map (·.status) =
        some .waitingSingle ∧
      lookupReg (removeUserFromQueues u1 st).1.reg u1 = none := by
  obtain ⟨pre, post, inv2, hdec, hl2, hst2, hlang2, hne, hrm⟩ :=
    remove_cascade_spec st gl u1 u2 n1 n2 hC hmem
  refine ⟨pre, post, hdec, by rw [hrm], ?_, ?_, ?_, ?_⟩
  · rw [hrm]
    exact PerLang.get_set_same _ _ _
  · rw [hrm]
    exact PerLang.get_set_same _ _ _
  · rw [hrm]
    dsimp only
    rw [lookupReg_insertReg]
    simp
  · rw [hrm]
    dsimp only
    rw [lookupReg_insertReg, if_neg hne]
    exact lookupReg_eraseReg_self _ _ hC.2.1

/-- A concrete consistent state with one waiting team (1,2) and one
waiting single 3, used to witness claim C3. -/
def stC3 : GMState :=
  { singles := ⟨[(3, "c")], []⟩, pending := ⟨none, none⟩,
    teams := ⟨[((1, "a"), (2, "b"))], []⟩, judges := ⟨[], []⟩, rooms := [],
    reg := [(1, ⟨Lang.en, .player, .waitingAsTeam, "en"⟩),
            (2, ⟨Lang.en, .player, .waitingAsTeam, "en"⟩),
            (3, ⟨Lang.en, .player, .waitingSingle, "en"⟩)] }

theorem claim_C3_witness :
    ∃ pre post,
      stC3.teams.get Lang.en = pre ++ ((1, "a"), (2, "b")) :: post ∧
      (removeUserFromQueues 1 stC3).2 = true ∧
      (removeUserFromQueues 1 stC3).1.teams.get Lang.en = pre ++ post ∧
      (removeUserFromQueues 1 stC3).1.singles.get Lang.en =
        stC3.singles.get Lang.en ++ [(2, "b")] ∧
      (lookupReg (removeUserFromQueues 1 stC3).1.reg 2).map (·.status) =
        some .waitingSingle ∧
      lookupReg (removeUserFromQueues 1 stC3).1.reg 1 = none :=
  claim_C3_departure_cascade stC3 Lang.en 1 2 "a" "b" (by decide) (by decide)

/-! ## Claim C4 — cascade position (corrected) -/

/-- A concrete consistent state with one waiting team (1,2) and a
non-empty singles list [3], refuting claim C4 as stated. -/
def stC4 : GMState :=
  { singles := ⟨[(3, "c")], []⟩, pending := ⟨none, none⟩,
    teams := ⟨[((1, "a"), (2, "b"))], []⟩, judges := ⟨[], []⟩, rooms := [],
    reg := [(1, ⟨Lang.en, .player, .waitingAsTeam, "en"⟩),
            (2, ⟨Lang.en, .player, .waitingAsTeam, "en"⟩),
            (3, ⟨Lang.en, .player, .waitingSingle, "en"⟩)] }

/-- Claim C4 as stated is false: in `stC4` the team (U1,U2) = (1,2) is
waiting and the singles list [3] is non-empty, U1 leaves, yet the
surviving member U2 is not the first element of the singles list — the
code appends U2 at the back, so the list is [3, 2]. -/
theorem claim_C4_counterexample :
    Consistent stC4 ∧ ((1, "a"), (2, "b")) ∈ stC4.teams.get Lang.en ∧
      stC4.singles.get Lang.en ≠ [] ∧
      (removeUserFromQueues 1 stC4).1.singles.get Lang.en = [(3, "c"), (2, "b")] ∧
      ((removeUserFromQueues 1 stC4).1.singles.get Lang.en).head? ≠ some (2, "b") := by
  decide

/-- Claim C4 (amended): after the departure cascade, the surviving
member U2 is the last (most recently appended, latest) element of the
language's singles list, not the first: the code appends the requeued
teammate at the back of `singles`. -/
theorem claim_C4_amended_cascade_position (st : GMState) (gl : Lang) (u1 u2 : Nat)
    (n1 n2 : String)
    (hC : Consistent st) (hmem : ((u1, n1), (u2, n2)) ∈ st.teams.get gl) :
    (removeUserFromQueues u1 st).1.singles.get gl =
        st.singles.get gl ++ [(u2, n2)] ∧
      ((removeUserFromQueues u1 st).1.singles.get gl).getLast? = some (u2, n2) := by
  obtain ⟨pre, post, inv2, hdec, hl2, hst2, hlang2, hne, hrm⟩ :=
    remove_cascade_spec st gl u1 u2 n1 n2 hC hmem
  constructor
  · rw [hrm]
    exact PerLang.get_set_same _ _ _
  · rw [hrm]
    dsimp only
    rw [PerLang.get_set_same]
    exact List.getLast?_concat _

theorem claim_C4_amended_witness :
    (removeUserFromQueues 1 stC4).1.singles.get Lang.en =
        stC4.singles.get Lang.en ++ [(2, "b")] ∧
      ((removeUserFromQueues 1 stC4).1.singles.get Lang.en).getLast? = some (2, "b") :=
  claim_C4_amended_cascade_position stC4 Lang.en 1 2 "a" "b" (by decide) (by decide)

/-! ## Claim C9 — idempotent removal -/

/-- Claim C9: a participant with no registry record is removed as a
no-op: `remove_user_from_queues` returns failure (the `NotInAnyQueue`
report) and changes nothing; consequently, in a consistent state, a
queued participant's removal succeeds the first time, and an immediate
second removal finds no record and yields the `NotInAnyQueue` no-op
(failure result, state unchanged) rather than an error or a second
removal. -/
theorem claim_C9_idempotent_removal (st : GMState) (uid : Nat) :
    (lookupReg st.reg uid = none → removeUserFromQueues uid st = (st, false)) ∧
      (Consistent st → isUserInWaitingQueue st uid = true →
        (removeUserFromQueues uid st).2 = true ∧
          removeUserFromQueues uid (removeUserFromQueues uid st).1 =
            ((removeUserFromQueues uid st).1, false)) := by
  constructor
  · exact remove_eq_of_no_record st uid
  · intro hC hq
    cases hl : lookupReg st.reg uid with
    | none =>
      unfold isUserInWaitingQueue at hq
      rw [hl] at hq
      exact absurd hq (by simp)
    | some inv =>
      have hku : (regKeys st.reg).Nodup := hC.2.1
      have herase : lookupReg (eraseReg st.reg uid) uid = none :=
        lookupReg_eraseReg_self _ _ hku
      unfold isUserInWaitingQueue at hq
      rw [hl] at hq
      cases hstat : inv.status with
      | waitingSingle =>
        rw [remove_eq_waitingSingle st uid inv hl hstat]
        exact ⟨rfl, remove_eq_of_no_record _ _ (by dsimp only; exact herase)⟩
      | waitingJudge =>
        rw [remove_eq_waitingJudge st uid inv hl hstat]
        exact ⟨rfl, remove_eq_of_no_record _ _ (by dsimp only; exact herase)⟩
      | waitingTeamPartner =>
        have hM := (hC.2.2.2 (uid, inv) (mem_of_lookupReg hl) hl).2.1 hstat
        obtain ⟨p, hpe, hpu⟩ := mem_pendingIds_elim hM
        rw [remove_eq_waitingTeamPartner_hit st uid inv p hl hstat hpe hpu]
        exact ⟨rfl, remove_eq_of_no_record _ _ (by dsimp only; exact herase)⟩
      | waitingAsTeam =>
        have hM := (hC.2.2.2 (uid, inv) (mem_of_lookupReg hl) hl).2.2.1 hstat
        have hsome := findTeamWithMate_isSome_of_mem uid _ hM
        cases hf : findTeamWithMate uid (st.teams.get inv.gameLang) with
        | none => rw [hf] at hsome; exact absurd hsome (by simp)
        | some im =>
          obtain ⟨i, mate⟩ := im
          have hmne : mate.1 ≠ uid := by
            obtain ⟨pre, t, post, hdec, hlen, hpre, hcase⟩ :=
              findTeamWithMate_spec uid _ i mate hf
            have hnd : (teamIds (st.teams.get inv.gameLang)).Nodup :=
              teamIds_nodup_of_occIds hC.1 inv.gameLang
            rw [hdec, teamIds_append] at hnd
            have h2 := hnd.of_append_right
            obtain ⟨t1, t2⟩ := t
            rw [teamIds_cons] at h2
            simp only [List.nodup_cons, List.mem_cons] at h2
            rcases hcase with ⟨h1, hm⟩ | ⟨h1, hsnd, hm⟩
            · subst hm
              intro hh
              exact h2.1 (Or.inl (h1.trans hh.symm))
            · subst hm
              exact h1
          cases hml : lookupReg (eraseReg st.reg uid) mate.1 with
          | some mateInv =>
            rw [remove_eq_waitingAsTeam_found st uid inv i mate mateInv hl hstat hf hml]
            refine ⟨rfl, ?_⟩
            apply remove_eq_of_no_record
            dsimp only
            rw [lookupReg_insertReg, if_neg (fun hh => hmne hh.symm)]
            exact herase
          | none =>
            rw [remove_eq_waitingAsTeam_noMate st uid inv i mate hl hstat hf hml]
            exact ⟨rfl, remove_eq_of_no_record _ _ (by dsimp only; exact herase)⟩
      | inGame r =>
        simp [hstat] at hq
      | statusNone =>
        simp [hstat] at hq
      | left =>
        simp [hstat] at hq

theorem claim_C9_witness :
    removeUserFromQueues 99 initialState = (initialState, false) ∧
      ((removeUserFromQueues 3 stC3).2 = true ∧
        removeUserFromQueues 3 (removeUserFromQueues 3 stC3).1 =
          ((removeUserFromQueues 3 stC3).1, false)) :=
  ⟨(claim_C9_idempotent_removal initialState 99).1 (by decide),
    (claim_C9_idempotent_removal stC3 3).2 (by decide) (by decide)⟩

/-! ## Occupancy membership helpers -/

theorem mem_occIds_of_singles {st : GMState} {l : Lang} {u : UserTuple}
    (h : u ∈ st.singles.get l) : u.1 ∈ occIds st :=
  ((singlesIds_sublist_langIds st l).trans (langIds_sublist_occIds st l)).subset
    (List.mem_map_of_mem _ h)

theorem mem_occIds_of_pending {st : GMState} {l : Lang} {u : UserTuple}
    (h : st.pending.get l = some u) : u.1 ∈ occIds st :=
  ((pendingIds_sublist_langIds st l).trans (langIds_sublist_occIds st l)).subset
    (by simp [pendingIds, h])

theorem mem_occIds_of_team_fst {st : GMState} {l : Lang} {t : TeamTuple}
    (h : t ∈ st.teams.get l) : t.1.1 ∈ occIds st :=
  ((teamIds_sublist_langIds st l).trans (langIds_sublist_occIds st l)).subset
    (mem_teamIds_fst h)

theorem mem_occIds_of_team_snd {st : GMState} {l : Lang} {t : TeamTuple}
    (h : t ∈ st.teams.get l) : t.2.1 ∈ occIds st :=
  ((teamIds_sublist_langIds st l).trans (langIds_sublist_occIds st l)).subset
    (mem_teamIds_snd h)

theorem mem_occIds_of_judges {st : GMState} {l : Lang} {u : UserTuple}
    (h : u ∈ st.judges.get l) : u.1 ∈ occIds st :=
  ((judgeIds_sublist_langIds st l).trans (langIds_sublist_occIds st l)).subset
    (List.mem_map_of_mem _ h)

/-! ## Occupancy-list accounting for each operation -/

theorem nodup_of_count_le {l lp : List Nat} (h : ∀ a, lp.count a ≤ l.count a)
    (hn : l.Nodup) : lp.Nodup := by
  rw [List.nodup_iff_count_le_one] at hn ⊢
  exact fun a => (h a).trans (hn a)

theorem recOK_of_lookup_eq {st stp : GMState} {u : Nat} {s : Status} {l : Lang}
    (h : lookupReg stp.reg u = lookupReg st.reg u) (hr : recOK st u s l) :
    recOK stp u s l := by
  unfold recOK at hr ⊢
  rw [h]
  exact hr

theorem occIds_addSingle_perm (st : GMState) (gl : Lang) (ui : UserTuple) (R : Reg) :
    (occIds { st with singles := st.singles.set gl (st.singles.get gl ++ [ui]), reg := R }).Perm (ui.1 :: occIds st) := by
  refine List.perm_iff_count.mpr (fun a => ?_)
  cases gl <;>
    simp [occIds, langIds, idsOf, pendingIds, teamIds, PerLang.get, PerLang.set,
      List.count_append, List.count_cons, beq_iff_eq] <;>
    split_ifs <;> omega

theorem occIds_addJudge_perm (st : GMState) (gl : Lang) (ui : UserTuple) (R : Reg) :
    (occIds { st with judges := st.judges.set gl (st.judges.get gl ++ [ui]), reg := R }).Perm (ui.1 :: occIds st) := by
  refine List.perm_iff_count.mpr (fun a => ?_)
  cases gl <;>
    simp [occIds, langIds, idsOf, pendingIds, teamIds, PerLang.get, PerLang.set,
      List.count_append, List.count_cons, beq_iff_eq] <;>
    split_ifs <;> omega

theorem occIds_addPending_perm (st : GMState) (gl : Lang) (ui : UserTuple) (R : Reg)
    (hp : st.pending.get gl = none) :
    (occIds { st with pending := st.pending.set gl (some ui), reg := R }).Perm
      (ui.1 :: occIds st) := by
  refine List.perm_iff_count.mpr (fun a => ?_)
  cases gl <;> simp only [PerLang.get] at hp <;>
    simp [occIds, langIds, idsOf, pendingIds, teamIds, PerLang.get, PerLang.set, hp,
      List.count_append, List.count_cons, beq_iff_eq] <;>
    split_ifs <;> omega

theorem occIds_formTeam_perm (st : GMState) (gl : Lang) (fp cur : UserTuple) (R : Reg)
    (hp : st.pending.get gl = some fp) :
    (occIds { st with teams := st.teams.set gl (st.teams.get gl ++ [(fp, cur)]), pending := st.pending.set gl none, reg := R }).Perm (cur.1 :: occIds st) := by
  refine List.perm_iff_count.mpr (fun a => ?_)
  cases gl <;> simp only [PerLang.get] at hp <;>
    simp [occIds, langIds, idsOf, pendingIds, teamIds, PerLang.get, PerLang.set, hp,
      List.count_append, List.count_cons, beq_iff_eq] <;>
    split_ifs <;> omega

theorem idsOf_pairUp_leftOver (xs : List UserTuple) :
    teamIds (pairUp xs) ++ idsOf (leftOver xs) = idsOf xs := by
  induction xs using twoStepInduction with
  | h0 => simp [pairUp, leftOver, teamIds, idsOf]
  | h1 a => simp [pairUp, leftOver, teamIds, idsOf]
  | h2 a b l ih =>
    rw [teamIds_pairUp_cons]
    simp only [leftOver, idsOf, List.map_cons]
    simp only [idsOf] at ih
    simp [ih]

theorem occIds_teamFormation_perm (gl : Lang) (st : GMState) :
    (occIds (teamFormation gl st)).Perm (occIds st) := by
  refine List.perm_iff_count.mpr (fun a => ?_)
  have h1 := formTeamsLoop_fst (st.singles.get gl) (st.teams.get gl) st.reg
  have h2 := formTeamsLoop_teams (st.singles.get gl) (st.teams.get gl) st.reg
  have h3 := congrArg (List.count a) (idsOf_pairUp_leftOver (st.singles.get gl))
  rw [List.count_append] at h3
  unfold teamFormation
  cases gl <;>
    simp only [PerLang.get, PerLang.set] at h1 h2 h3 ⊢ <;>
    simp [occIds, langIds, idsOf, pendingIds, teamIds_append, PerLang.get, PerLang.set,
      h1, h2, List.count_append, List.count_cons, beq_iff_eq] <;>
    simp only [idsOf] at h3 <;>
    omega

theorem lookupReg_setTeamsStatus (s : Status) :
    ∀ (ts : List TeamTuple) (reg : Reg) (v : Nat),
      lookupReg (setTeamsStatus s ts reg) v =
        if v ∈ teamIds ts then (lookupReg reg v).map (fun r => { r with status := s })
        else lookupReg reg v := by
  intro ts
  induction ts with
  | nil => intro reg v; simp [setTeamsStatus, teamIds]
  | cons hd tl ih =>
    obtain ⟨p1, p2⟩ := hd
    intro reg v
    simp only [setTeamsStatus]
    rw [ih]
    simp only [lookupReg_updateStatus, teamIds_cons, List.mem_cons]
    split_ifs <;> simp_all [map_setStatus_idem, setStatus_comp]

theorem occIds_roomSuccess_count (st : GMState) (gl : Lang) (restJ : List UserTuple)
    (R : Reg) (rooms2 : List Room) (judge : UserTuple)
    (hj : st.judges.get gl = judge :: restJ) (a : Nat) :
    (occIds { st with teams := st.teams.set gl ((st.teams.get gl).drop TEAMS_PER_ROOM), judges := st.judges.set gl restJ, rooms := rooms2, reg := R }).count a ≤
      (occIds st).count a := by
  have hsplit : st.teams.get gl =
      (st.teams.get gl).take TEAMS_PER_ROOM ++ (st.teams.get gl).drop TEAMS_PER_ROOM :=
    (List.take_append_drop _ _).symm
  have hcnt : (teamIds (st.teams.get gl)).count a =
      (teamIds ((st.teams.get gl).take TEAMS_PER_ROOM)).count a +
        (teamIds ((st.teams.get gl).drop TEAMS_PER_ROOM)).count a := by
    conv_lhs => rw [hsplit]
    rw [teamIds_append, List.count_append]
  cases gl <;> simp only [PerLang.get] at hj hcnt <;>
    simp [occIds, langIds, idsOf, pendingIds, PerLang.get, PerLang.set, hj,
      List.count_append, List.count_cons, beq_iff_eq] <;>
    split_ifs <;> omega

theorem occIds_filter_singles_count (st : GMState) (gl : Lang) (uid : Nat) (R : Reg)
    (a : Nat) :
    (occIds { st with reg := R, singles := st.singles.set gl ((st.singles.get gl).filter (fun u => u.1 ≠ uid)) }).count a ≤
      (occIds st).count a := by
  have hf : ∀ l : List UserTuple,
      (idsOf (l.filter (fun u => u.1 ≠ uid))).count a ≤ (idsOf l).count a := by
    intro l
    exact ((List.filter_sublist l).map _).count_le _
  cases gl <;>
    simp only [occIds, langIds, idsOf, pendingIds, PerLang.get, PerLang.set,
      List.count_append] <;>
    have h1 := hf (st.singles.en) <;> have h2 := hf (st.singles.ru) <;>
    simp only [idsOf] at h1 h2 <;>
    omega

theorem occIds_filter_judges_count (st : GMState) (gl : Lang) (uid : Nat) (R : Reg)
    (a : Nat) :
    (occIds { st with reg := R, judges := st.judges.set gl ((st.judges.get gl).filter (fun u => u.1 ≠ uid)) }).count a ≤
      (occIds st).count a := by
  have hf : ∀ l : List UserTuple,
      (idsOf (l.filter (fun u => u.1 ≠ uid))).count a ≤ (idsOf l).count a := by
    intro l
    exact ((List.filter_sublist l).map _).count_le _
  cases gl <;>
    simp only [occIds, langIds, idsOf, pendingIds, PerLang.get, PerLang.set,
      List.count_append] <;>
    have h1 := hf (st.judges.en) <;> have h2 := hf (st.judges.ru) <;>
    simp only [idsOf] at h1 h2 <;>
    omega

theorem occIds_clear_pending_count (st : GMState) (gl : Lang) (R : Reg) (a : Nat) :
    (occIds { st with reg := R, pending := st.pending.set gl none }).count a ≤
      (occIds st).count a := by
  cases gl <;>
    simp [occIds, langIds, idsOf, pendingIds, PerLang.get, PerLang.set,
      List.count_append] <;>
    cases st.pending.en <;> cases st.pending.ru <;>
    simp [List.count_cons, beq_iff_eq] <;> split_ifs <;> omega

theorem occIds_reg_only (st : GMState) (R : Reg) :
    occIds { st with reg := R } = occIds st := rfl

/-! ## Preservation of the invariant: join operations -/

theorem consistent_addPlayerSingle (st : GMState) (uid : Nat) (un : Option String)
    (gl : Lang) (ul : String) (hC : Consistent st) :
    Consistent (addPlayerSingle uid un gl ul st).1 := by
  unfold addPlayerSingle
  by_cases hocc : isUserOccupied st uid = true
  · rw [if_pos hocc]
    exact hC
  · rw [if_neg hocc]
    obtain ⟨hnd, hkeys, hS, hT⟩ := hC
    have hfresh : uid ∉ occIds st := not_mem_occIds hS (by simpa using hocc)
    dsimp only
    refine ⟨?_, ?_, ?_, ?_⟩
    · exact (occIds_addSingle_perm st gl (mkUserInfo uid un) _).nodup_iff.mpr
        (List.nodup_cons.mpr ⟨hfresh, hnd⟩)
    · exact regKeys_insertReg_nodup _ _ _ hkeys
    · intro l
      obtain ⟨hsg, hpd, htm, hjd⟩ := hS l
      have htrans : ∀ (u : Nat) (s : Status), u ∈ occIds st → recOK st u s l →
          recOK { st with singles := st.singles.set gl (st.singles.get gl ++ [mkUserInfo uid un]), reg := insertReg st.reg uid ⟨gl, .player, .waitingSingle, ul⟩ } u s l := by
        intro u s hu hr
        refine recOK_of_lookup_eq ?_ hr
        dsimp only
        rw [lookupReg_insertReg, if_neg (fun hh : u = uid => hfresh (hh ▸ hu))]
      refine ⟨?_, ?_, ?_, ?_⟩
      · intro u hu
        by_cases hlg : l = gl
        · subst hlg
          rw [PerLang.get_set_same] at hu
          rcases List.mem_append.mp hu with hu | hu
          · exact htrans u.1 _ (mem_occIds_of_singles hu) (hsg u hu)
          · rw [List.mem_singleton.mp hu]
            unfold recOK
            dsimp only
            rw [lookupReg_insertReg]
            simp [mkUserInfo]
        · rw [PerLang.get_set_ne _ _ _ _ hlg] at hu
          exact htrans u.1 _ (mem_occIds_of_singles hu) (hsg u hu)
      · intro u hu
        exact htrans u.1 _ (mem_occIds_of_pending (by simpa [Option.mem_toList] using hu))
          (hpd u hu)
      · intro t ht
        exact ⟨htrans t.1.1 _ (mem_occIds_of_team_fst ht) (htm t ht).1,
          htrans t.2.1 _ (mem_occIds_of_team_snd ht) (htm t ht).2⟩
      · intro u hu
        exact htrans u.1 _ (mem_occIds_of_judges hu) (hjd u hu)
    · intro e he hlk
      rcases mem_insertReg he with he1 | he1
      · subst he1
        refine ⟨fun _ => ?_, fun h => absurd h (by simp), fun h => absurd h (by simp),
          fun h => absurd h (by simp)⟩
        dsimp only
        rw [PerLang.get_set_same]
        simp [idsOf, mkUserInfo]
      · by_cases heu : e.1 = uid
        · have : e.2 = ⟨gl, .player, .waitingSingle, ul⟩ := by
            dsimp only at hlk
            rw [heu, lookupReg_insertReg, if_pos rfl] at hlk
            exact (Option.some.inj hlk).symm
          rw [this]
          refine ⟨fun _ => ?_, fun h => absurd h (by simp), fun h => absurd h (by simp),
            fun h => absurd h (by simp)⟩
          dsimp only
          rw [heu, PerLang.get_set_same]
          simp [idsOf, mkUserInfo]
        · have hlk2 : lookupReg st.reg e.1 = some e.2 := by
            dsimp only at hlk
            rw [lookupReg_insertReg, if_neg heu] at hlk
            exact hlk
          have hold := hT e he1 hlk2
          refine ⟨fun h => ?_, fun h => ?_, fun h => ?_, fun h => ?_⟩
          · have := hold.1 h
            dsimp only
            by_cases hlg : e.2.gameLang = gl
            · rw [hlg, PerLang.get_set_same]
              rw [hlg] at this
              simp only [idsOf, List.map_append]
              exact List.mem_append_left _ this
            · rw [PerLang.get_set_ne _ _ _ _ hlg]
              exact this
          · exact hold.2.1 h
          · exact hold.2.2.1 h
          · exact hold.2.2.2 h

theorem consistent_addJudge (st : GMState) (uid : Nat) (un : Option String)
    (gl : Lang) (ul : String) (hC : Consistent st) :
    Consistent (addJudge uid un gl ul st).1 := by
  unfold addJudge
  by_cases hocc : isUserOccupied st uid = true
  · rw [if_pos hocc]
    exact hC
  · rw [if_neg hocc]
    obtain ⟨hnd, hkeys, hS, hT⟩ := hC
    have hfresh : uid ∉ occIds st := not_mem_occIds hS (by simpa using hocc)
    dsimp only
    refine ⟨?_, ?_, ?_, ?_⟩
    · exact (occIds_addJudge_perm st gl (mkUserInfo uid un) _).nodup_iff.mpr
        (List.nodup_cons.mpr ⟨hfresh, hnd⟩)
    · exact regKeys_insertReg_nodup _ _ _ hkeys
    · intro l
      obtain ⟨hsg, hpd, htm, hjd⟩ := hS l
      have htrans : ∀ (u : Nat) (s : Status), u ∈ occIds st → recOK st u s l →
          recOK { st with judges := st.judges.set gl (st.judges.get gl ++ [mkUserInfo uid un]), reg := insertReg st.reg uid ⟨gl, .judge, .waitingJudge, ul⟩ } u s l := by
        intro u s hu hr
        refine recOK_of_lookup_eq ?_ hr
        dsimp only
        rw [lookupReg_insertReg, if_neg (fun hh : u = uid => hfresh (hh ▸ hu))]
      refine ⟨?_, ?_, ?_, ?_⟩
      · intro u hu
        exact htrans u.1 _ (mem_occIds_of_singles hu) (hsg u hu)
      · intro u hu
        exact htrans u.1 _ (mem_occIds_of_pending (by simpa [Option.mem_toList] using hu))
          (hpd u hu)
      · intro t ht
        exact ⟨htrans t.1.1 _ (mem_occIds_of_team_fst ht) (htm t ht).1,
          htrans t.2.1 _ (mem_occIds_of_team_snd ht) (htm t ht).2⟩
      · intro u hu
        by_cases hlg : l = gl
        · subst hlg
          rw [PerLang.get_set_same] at hu
          rcases List.mem_append.mp hu with hu | hu
          · exact htrans u.1 _ (mem_occIds_of_judges hu) (hjd u hu)
          · rw [List.mem_singleton.mp hu]
            unfold recOK
            dsimp only
            rw [lookupReg_insertReg]
            simp [mkUserInfo]
        · rw [PerLang.get_set_ne _ _ _ _ hlg] at hu
          exact htrans u.1 _ (mem_occIds_of_judges hu) (hjd u hu)
    · intro e he hlk
      rcases mem_insertReg he with he1 | he1
      · subst he1
        refine ⟨fun h => absurd h (by simp), fun h => absurd h (by simp),
          fun h => absurd h (by simp), fun _ => ?_⟩
        dsimp only
        rw [PerLang.get_set_same]
        simp [idsOf, mkUserInfo]
      · by_cases heu : e.1 = uid
        · have : e.2 = ⟨gl, .judge, .waitingJudge, ul⟩ := by
            dsimp only at hlk
            rw [heu, lookupReg_insertReg, if_pos rfl] at hlk
            exact (Option.some.inj hlk).symm
          rw [this]
          refine ⟨fun h => absurd h (by simp), fun h => absurd h (by simp),
            fun h => absurd h (by simp), fun _ => ?_⟩
          dsimp only
          rw [heu, PerLang.get_set_same]
          simp [idsOf, mkUserInfo]
        · have hlk2 : lookupReg st.reg e.1 = some e.2 := by
            dsimp only at hlk
            rw [lookupReg_insertReg, if_neg heu] at hlk
            exact hlk
          have hold := hT e he1 hlk2
          refine ⟨fun h => hold.1 h, fun h => hold.2.1 h, fun h => hold.2.2.1 h,
            fun h => ?_⟩
          have := hold.2.2.2 h
          dsimp only
          by_cases hlg : e.2.gameLang = gl
          · rw [hlg, PerLang.get_set_same]
            rw [hlg] at this
            simp only [idsOf, List.map_append]
            exact List.mem_append_left _ this
          · rw [PerLang.get_set_ne _ _ _ _ hlg]
            exact this

theorem recOK_unique {st : GMState} {u : Nat} {s1 s2 : Status} {l1 l2 : Lang}
    (h1 : recOK st u s1 l1) (h2 : recOK st u s2 l2) : s1 = s2 ∧ l1 = l2 := by
  obtain ⟨inv1, ha1, hb1, hc1⟩ := recOK_elim h1
  obtain ⟨inv2, ha2, hb2, hc2⟩ := recOK_elim h2
  rw [ha1] at ha2
  obtain rfl := Option.some.inj ha2
  exact ⟨hb1 ▸ hb2 ▸ rfl, hc1 ▸ hc2 ▸ rfl⟩

theorem consistent_addPlayerTeam (st : GMState) (uid : Nat) (un : Option String)
    (gl : Lang) (ul : String) (hC : Consistent st) :
    Consistent (addPlayerTeam uid un gl ul st).1 := by
  unfold addPlayerTeam
  by_cases hocc : isUserOccupied st uid = true
  · rw [if_pos hocc]
    exact hC
  · rw [if_neg hocc]
    obtain ⟨hnd, hkeys, hS, hT⟩ := hC
    have hfresh : uid ∉ occIds st := not_mem_occIds hS (by simpa using hocc)
    cases hp : st.pending.get gl with
    | none =>
      dsimp only
      refine ⟨?_, ?_, ?_, ?_⟩
      · exact (occIds_addPending_perm st gl (mkUserInfo uid un) _ hp).nodup_iff.mpr
          (List.nodup_cons.mpr ⟨hfresh, hnd⟩)
      · exact regKeys_insertReg_nodup _ _ _ hkeys
      · intro l
        obtain ⟨hsg, hpd, htm, hjd⟩ := hS l
        have htrans : ∀ (u : Nat) (s : Status), u ∈ occIds st → recOK st u s l →
            recOK { st with pending := st.pending.set gl (some (mkUserInfo uid un)), reg := insertReg st.reg uid ⟨gl, .player, .waitingTeamPartner, ul⟩ } u s l := by
          intro u s hu hr
          refine recOK_of_lookup_eq ?_ hr
          dsimp only
          rw [lookupReg_insertReg, if_neg (fun hh : u = uid => hfresh (hh ▸ hu))]
        refine ⟨?_, ?_, ?_, ?_⟩
        · intro u hu
          exact htrans u.1 _ (mem_occIds_of_singles hu) (hsg u hu)
        · intro u hu
          by_cases hlg : l = gl
          · subst hlg
            rw [PerLang.get_set_same] at hu
            simp only [Option.toList_some, List.mem_singleton] at hu
            rw [hu]
            unfold recOK
            dsimp only
            rw [lookupReg_insertReg]
            simp [mkUserInfo]
          · rw [PerLang.get_set_ne _ _ _ _ hlg] at hu
            exact htrans u.1 _
              (mem_occIds_of_pending (by simpa [Option.mem_toList] using hu)) (hpd u hu)
        · intro t ht
          exact ⟨htrans t.1.1 _ (mem_occIds_of_team_fst ht) (htm t ht).1,
            htrans t.2.1 _ (mem_occIds_of_team_snd ht) (htm t ht).2⟩
        · intro u hu
          exact htrans u.1 _ (mem_occIds_of_judges hu) (hjd u hu)
      · intro e he hlk
        rcases mem_insertReg he with he1 | he1
        · subst he1
          refine ⟨fun h => absurd h (by simp), fun _ => ?_, fun h => absurd h (by simp),
            fun h => absurd h (by simp)⟩
          dsimp only
          rw [PerLang.get_set_same]
          simp [pendingIds, mkUserInfo]
        · by_cases heu : e.1 = uid
          · have : e.2 = ⟨gl, .player, .waitingTeamPartner, ul⟩ := by
              dsimp only at hlk
              rw [heu, lookupReg_insertReg, if_pos rfl] at hlk
              exact (Option.some.inj hlk).symm
            rw [this]
            refine ⟨fun h => absurd h (by simp), fun _ => ?_, fun h => absurd h (by simp),
              fun h => absurd h (by simp)⟩
            dsimp only
            rw [heu, PerLang.get_set_same]
            simp [pendingIds, mkUserInfo]
          · have hlk2 : lookupReg st.reg e.1 = some e.2 := by
              dsimp only at hlk
              rw [lookupReg_insertReg, if_neg heu] at hlk
              exact hlk
            have hold := hT e he1 hlk2
            refine ⟨fun h => hold.1 h, fun h => ?_, fun h => hold.2.2.1 h,
              fun h => hold.2.2.2 h⟩
            have := hold.2.1 h
            dsimp only
            by_cases hlg : e.2.gameLang = gl
            · rw [hlg] at this
              rw [hp] at this
              simp [pendingIds] at this
            · rw [PerLang.get_set_ne _ _ _ _ hlg]
              exact this
    | some fp =>
      have hfpmem : fp.1 ∈ occIds st := mem_occIds_of_pending hp
      have hfpOK : recOK st fp.1 .waitingTeamPartner gl := by
        obtain ⟨_, hpd, _, _⟩ := hS gl
        exact hpd fp (by simp [hp])
      obtain ⟨invFp, hlf, hsf, hgf⟩ := recOK_elim hfpOK
      dsimp only
      by_cases hself : fp.1 = uid
      · rw [if_pos hself]
        exact ⟨hnd, hkeys, hS, hT⟩
      · rw [if_neg hself]
        dsimp only
        have hlook : ∀ v, lookupReg (insertReg (updateStatus st.reg fp.1 .waitingAsTeam) uid ⟨gl, .player, .waitingAsTeam, ul⟩) v = if v = uid then some ⟨gl, .player, .waitingAsTeam, ul⟩ else if v = fp.1 then some { invFp with status := .waitingAsTeam } else lookupReg st.reg v := by
          intro v
          rw [lookupReg_insertReg, lookupReg_updateStatus, hlf]
          rfl
        refine ⟨?_, ?_, ?_, ?_⟩
        · exact (occIds_formTeam_perm st gl fp (mkUserInfo uid un) _ hp).nodup_iff.mpr
            (List.nodup_cons.mpr ⟨hfresh, hnd⟩)
        · refine regKeys_insertReg_nodup _ _ _ ?_
          rw [regKeys_updateStatus]
          exact hkeys
        · intro l
          obtain ⟨hsg, hpd, htm, hjd⟩ := hS l
          have htrans : ∀ (u : Nat) (s : Status), u ∈ occIds st → s ≠ .waitingTeamPartner →
              recOK st u s l →
              recOK { st with teams := st.teams.set gl (st.teams.get gl ++ [(fp, mkUserInfo uid un)]), pending := st.pending.set gl none, reg := insertReg (updateStatus st.reg fp.1 .waitingAsTeam) uid ⟨gl, .player, .waitingAsTeam, ul⟩ } u s l := by
            intro u s hu hsne hr
            refine recOK_of_lookup_eq ?_ hr
            dsimp only
            rw [hlook]
            rw [if_neg (fun hh : u = uid => hfresh (hh ▸ hu))]
            rw [if_neg (fun hh : u = fp.1 => hsne ((recOK_unique hr (hh ▸ hfpOK)).1))]
          refine ⟨?_, ?_, ?_, ?_⟩
          · intro u hu
            exact htrans u.1 _ (mem_occIds_of_singles hu) (by simp) (hsg u hu)
          · intro u hu
            by_cases hlg : l = gl
            · subst hlg
              rw [PerLang.get_set_same] at hu
              simp at hu
            · rw [PerLang.get_set_ne _ _ _ _ hlg] at hu
              have hr := hpd u hu
              have hu2 : st.pending.get l = some u := by
                simpa [Option.mem_toList] using hu
              refine recOK_of_lookup_eq ?_ hr
              dsimp only
              rw [hlook]
              rw [if_neg (fun hh : u.1 = uid => hfresh (hh ▸ mem_occIds_of_pending hu2))]
              rw [if_neg (fun hh : u.1 = fp.1 => hlg ((recOK_unique hr (hh ▸ hfpOK)).2))]
          · intro t ht
            by_cases hlg : l = gl
            · subst hlg
              rw [PerLang.get_set_same] at ht
              rcases List.mem_append.mp ht with ht | ht
              · exact ⟨htrans t.1.1 _ (mem_occIds_of_team_fst ht) (by simp) (htm t ht).1,
                  htrans t.2.1 _ (mem_occIds_of_team_snd ht) (by simp) (htm t ht).2⟩
              · rw [List.mem_singleton.mp ht]
                constructor
                · unfold recOK
                  dsimp only
                  rw [hlook]
                  rw [if_neg hself, if_pos rfl]
                  simp [hgf]
                · unfold recOK
                  dsimp only
                  rw [hlook]
                  simp [mkUserInfo]
            · rw [PerLang.get_set_ne _ _ _ _ hlg] at ht
              exact ⟨htrans t.1.1 _ (mem_occIds_of_team_fst ht) (by simp) (htm t ht).1,
                htrans t.2.1 _ (mem_occIds_of_team_snd ht) (by simp) (htm t ht).2⟩
          · intro u hu
            exact htrans u.1 _ (mem_occIds_of_judges hu) (by simp) (hjd u hu)
        · intro e he hlk
          dsimp only at hlk
          rw [hlook] at hlk
          by_cases heu : e.1 = uid
          · rw [if_pos heu] at hlk
            have he2 : e.2 = ⟨gl, .player, .waitingAsTeam, ul⟩ := (Option.some.inj hlk).symm
            rw [he2]
            refine ⟨fun h => absurd h (by simp), fun h => absurd h (by simp),
              fun _ => ?_, fun h => absurd h (by simp)⟩
            dsimp only
            rw [PerLang.get_set_same, teamIds_append]
            simp [teamIds, mkUserInfo, heu]
          · rw [if_neg heu] at hlk
            by_cases hef : e.1 = fp.1
            · rw [if_pos hef] at hlk
              have he2 : e.2 = { invFp with status := .waitingAsTeam } :=
                (Option.some.inj hlk).symm
              rw [he2]
              refine ⟨fun h => absurd h (by simp), fun h => absurd h (by simp),
                fun _ => ?_, fun h => absurd h (by simp)⟩
              dsimp only
              rw [hgf, PerLang.get_set_same, teamIds_append]
              simp [teamIds, hef]
            · rw [if_neg hef] at hlk
              have hein : e ∈ st.reg := mem_of_lookupReg hlk
              have hold := hT e hein hlk
              refine ⟨fun h => hold.1 h, fun h => ?_, fun h => ?_, fun h => hold.2.2.2 h⟩
              · have := hold.2.1 h
                dsimp only
                by_cases hlg : e.2.gameLang = gl
                · rw [hlg, hp] at this
                  simp only [pendingIds, Option.toList_some, List.map_cons, List.map_nil,
                    List.mem_singleton] at this
                  exact absurd this hef
                · rw [PerLang.get_set_ne _ _ _ _ hlg]
                  exact this
              · have := hold.2.2.1 h
                dsimp only
                by_cases hlg : e.2.gameLang = gl
                · rw [hlg, PerLang.get_set_same, teamIds_append]
                  rw [hlg] at this
                  exact List.mem_append_left _ this
                · rw [PerLang.get_set_ne _ _ _ _ hlg]
                  exact this

theorem leftOver_subset (xs : List UserTuple) : ∀ u ∈ leftOver xs, u ∈ xs := by
  induction xs using twoStepInduction with
  | h0 => intro u hu; simpa [leftOver] using hu
  | h1 a => intro u hu; simpa [leftOver] using hu
  | h2 a b l ih =>
    intro u hu
    simp only [leftOver] at hu
    exact List.mem_cons_of_mem _ (List.mem_cons_of_mem _ (ih u hu))

theorem regKeys_formTeamsLoop (xs : List UserTuple) :
    ∀ ts reg, regKeys (formTeamsLoop xs ts reg).2.2 = regKeys reg := by
  induction xs using twoStepInduction with
  | h0 => intro ts reg; rfl
  | h1 a => intro ts reg; rfl
  | h2 a b l ih =>
    intro ts reg
    simp only [formTeamsLoop]
    rw [ih, regKeys_updateStatus, regKeys_updateStatus]

theorem consistent_teamFormation (gl : Lang) (st : GMState) (hC : Consistent st) :
    Consistent (teamFormation gl st) := by
  obtain ⟨hnd, hkeys, hS, hT⟩ := hC
  have hxsnd : (idsOf (st.singles.get gl)).Nodup :=
    (((singlesIds_sublist_langIds st gl).trans (langIds_sublist_occIds st gl))).nodup hnd
  have hsplit := idsOf_pairUp_leftOver (st.singles.get gl)
  have hdisj : ∀ v ∈ teamIds (pairUp (st.singles.get gl)),
      v ∉ idsOf (leftOver (st.singles.get gl)) := by
    rw [← hsplit] at hxsnd
    intro v hv hv2
    exact (List.disjoint_of_nodup_append hxsnd) hv hv2
  have hpairOK : ∀ v ∈ teamIds (pairUp (st.singles.get gl)),
      recOK st v .waitingSingle gl := by
    intro v hv
    obtain ⟨u, hu, he⟩ := mem_teamIds_pairUp _ v hv
    exact he ▸ (hS gl).1 u hu
  refine ⟨?_, ?_, ?_, ?_⟩
  · exact (occIds_teamFormation_perm gl st).nodup_iff.mpr hnd
  · show (regKeys (teamFormation gl st).reg).Nodup
    unfold teamFormation
    rw [regKeys_formTeamsLoop]
    exact hkeys
  · intro l
    obtain ⟨hsg, hpd, htm, hjd⟩ := hS l
    have htrans : ∀ (u : Nat) (s : Status),
        u ∉ teamIds (pairUp (st.singles.get gl)) → recOK st u s l →
        recOK (teamFormation gl st) u s l := by
      intro u s hu hr
      refine recOK_of_lookup_eq ?_ hr
      rw [teamFormation_lookup, if_neg hu]
    have hconflict : ∀ (u : Nat) (s : Status), recOK st u s l →
        (s ≠ .waitingSingle ∨ l ≠ gl) → u ∉ teamIds (pairUp (st.singles.get gl)) := by
      intro u s hr hor hu
      have := recOK_unique hr (hpairOK u hu)
      rcases hor with h | h
      · exact h this.1
      · exact h this.2
    refine ⟨?_, ?_, ?_, ?_⟩
    · intro u hu
      by_cases hlg : l = gl
      · subst hlg
        rw [teamFormation_singles_get] at hu
        have hux : u ∈ st.singles.get l := leftOver_subset _ u hu
        refine htrans u.1 _ ?_ (hsg u hux)
        intro hmem
        exact hdisj u.1 hmem (List.mem_map_of_mem _ hu)
      · rw [teamFormation_singles_get_ne _ _ _ hlg] at hu
        exact htrans u.1 _ (hconflict u.1 _ (hsg u hu) (Or.inr hlg)) (hsg u hu)
    · intro u hu
      rw [show (teamFormation gl st).pending = st.pending from teamFormation_pending gl st]
        at hu
      exact htrans u.1 _ (hconflict u.1 _ (hpd u hu) (Or.inl (by simp))) (hpd u hu)
    · intro t ht
      by_cases hlg : l = gl
      · subst hlg
        rw [teamFormation_teams_get] at ht
        rcases List.mem_append.mp ht with ht | ht
        · exact ⟨htrans t.1.1 _ (hconflict t.1.1 _ (htm t ht).1 (Or.inl (by simp)))
              (htm t ht).1,
            htrans t.2.1 _ (hconflict t.2.1 _ (htm t ht).2 (Or.inl (by simp)))
              (htm t ht).2⟩
        · have h1 : t.1.1 ∈ teamIds (pairUp (st.singles.get l)) := mem_teamIds_fst ht
          have h2 : t.2.1 ∈ teamIds (pairUp (st.singles.get l)) := mem_teamIds_snd ht
          constructor
          · obtain ⟨inv, ha, hb, hc⟩ := recOK_elim (hpairOK _ h1)
            unfold recOK
            rw [teamFormation_lookup, if_pos h1, ha]
            simp [hc]
          · obtain ⟨inv, ha, hb, hc⟩ := recOK_elim (hpairOK _ h2)
            unfold recOK
            rw [teamFormation_lookup, if_pos h2, ha]
            simp [hc]
      · rw [teamFormation_teams_get_ne _ _ _ hlg] at ht
        exact ⟨htrans t.1.1 _ (hconflict t.1.1 _ (htm t ht).1 (Or.inr hlg)) (htm t ht).1,
          htrans t.2.1 _ (hconflict t.2.1 _ (htm t ht).2 (Or.inr hlg)) (htm t ht).2⟩
    · intro u hu
      rw [show (teamFormation gl st).judges = st.judges from teamFormation_judges gl st]
        at hu
      exact htrans u.1 _ (hconflict u.1 _ (hjd u hu) (Or.inl (by simp))) (hjd u hu)
  · intro e he hlk
    rw [teamFormation_lookup] at hlk
    by_cases hmem : e.1 ∈ teamIds (pairUp (st.singles.get gl))
    · rw [if_pos hmem] at hlk
      obtain ⟨invOld, haOld, hbOld, hcOld⟩ := recOK_elim (hpairOK _ hmem)
      rw [haOld] at hlk
      have he2 : e.2 = { invOld with status := .waitingAsTeam } :=
        (Option.some.inj hlk).symm
      rw [he2]
      refine ⟨fun h => absurd h (by simp), fun h => absurd h (by simp), fun _ => ?_,
        fun h => absurd h (by simp)⟩
      dsimp only
      rw [hcOld, teamFormation_teams_get, teamIds_append]
      exact List.mem_append_right _ hmem
    · rw [if_neg hmem] at hlk
      have hold := hT e (mem_of_lookupReg hlk) hlk
      refine ⟨fun h => ?_, fun h => ?_, fun h => ?_, fun h => ?_⟩
      · have hin := hold.1 h
        by_cases hlg : e.2.gameLang = gl
        · rw [hlg, teamFormation_singles_get]
          rw [hlg] at hin
          rw [← hsplit] at hin
          rcases List.mem_append.mp hin with hin | hin
          · exact absurd hin hmem
          · exact hin
        · rw [teamFormation_singles_get_ne _ _ _ hlg]
          exact hold.1 h
      · rw [show (teamFormation gl st).pending = st.pending from teamFormation_pending gl st]
        exact hold.2.1 h
      · have hin := hold.2.2.1 h
        by_cases hlg : e.2.gameLang = gl
        · rw [hlg, teamFormation_teams_get, teamIds_append]
          rw [hlg] at hin
          exact List.mem_append_left _ hin
        · rw [teamFormation_teams_get_ne _ _ _ hlg]
          exact hin
      · rw [show (teamFormation gl st).judges = st.judges from teamFormation_judges gl st]
        exact hold.2.2.2 h

theorem regKeys_setTeamsStatus (s : Status) :
    ∀ (ts : List TeamTuple) (reg : Reg), regKeys (setTeamsStatus s ts reg) = regKeys reg := by
  intro ts
  induction ts with
  | nil => intro reg; rfl
  | cons hd tl ih =>
    obtain ⟨p1, p2⟩ := hd
    intro reg
    simp only [setTeamsStatus]
    rw [ih, regKeys_updateStatus, regKeys_updateStatus]

theorem consistent_roomFormation (res : Option (String × String)) (gl : Lang)
    (st : GMState) (hC : Consistent st) : Consistent (roomFormation res gl st) := by
  by_cases hth : TEAMS_PER_ROOM ≤ (st.teams.get gl).length ∧
      JUDGES_PER_ROOM ≤ (st.judges.get gl).length
  · obtain ⟨hnd, hkeys, hS, hT⟩ := hC
    simp only [roomFormation]
    rw [if_pos hth]
    cases hj : st.judges.get gl with
    | nil => exact ⟨hnd, hkeys, hS, hT⟩
    | cons judge restJ =>
      dsimp only
      cases res with
      | none =>
        rw [List.take_append_drop, ← hj, PerLang.set_get_self, PerLang.set_get_self]
        exact ⟨hnd, hkeys, hS, hT⟩
      | some pr =>
        obtain ⟨eventId, uri⟩ := pr
        dsimp only
        have hjmem : judge ∈ st.judges.get gl := by rw [hj]; exact List.mem_cons_self _ _
        have hjOK : recOK st judge.1 .waitingJudge gl := (hS gl).2.2.2 judge hjmem
        have hselOK : ∀ v ∈ teamIds ((st.teams.get gl).take TEAMS_PER_ROOM),
            recOK st v .waitingAsTeam gl := by
          intro v hv
          obtain ⟨t, ht, hcase⟩ := mem_teamIds_elim hv
          have ht2 : t ∈ st.teams.get gl := (List.take_sublist _ _).subset ht
          rcases hcase with he | he
          · exact he ▸ ((hS gl).2.2.1 t ht2).1
          · exact he ▸ ((hS gl).2.2.1 t ht2).2
        have htrans : ∀ (u : Nat) (s : Status) (l : Lang),
            u ∉ teamIds ((st.teams.get gl).take TEAMS_PER_ROOM) → u ≠ judge.1 →
            recOK st u s l →
            recOK { st with teams := st.teams.set gl ((st.teams.get gl).drop TEAMS_PER_ROOM), judges := st.judges.set gl restJ, rooms := st.rooms ++ [{ id := "room_" ++ gl.code ++ "_" ++ eventId.take 8, language := gl, judge := judge, teams := (st.teams.get gl).take TEAMS_PER_ROOM, meetLink := uri }], reg := setTeamsStatus (.inGame ("room_" ++ gl.code ++ "_" ++ eventId.take 8)) ((st.teams.get gl).take TEAMS_PER_ROOM) (updateStatus st.reg judge.1 (.inGame ("room_" ++ gl.code ++ "_" ++ eventId.take 8))) } u s l := by
          intro u s l hu1 hu2 hr
          refine recOK_of_lookup_eq ?_ hr
          dsimp only
          rw [lookupReg_setTeamsStatus, if_neg hu1, lookupReg_updateStatus, if_neg hu2]
        have hconfSel : ∀ (u : Nat) (s : Status) (l : Lang), recOK st u s l →
            (s ≠ .waitingAsTeam ∨ l ≠ gl) →
            u ∉ teamIds ((st.teams.get gl).take TEAMS_PER_ROOM) := by
          intro u s l hr hor hu
          have := recOK_unique hr (hselOK u hu)
          rcases hor with h | h
          · exact h this.1
          · exact h this.2
        have hconfJ : ∀ (u : Nat) (s : Status) (l : Lang), recOK st u s l →
            (s ≠ .waitingJudge ∨ l ≠ gl) → u ≠ judge.1 := by
          intro u s l hr hor hu
          have := recOK_unique hr (hu ▸ hjOK)
          rcases hor with h | h
          · exact h this.1
          · exact h this.2
        refine ⟨?_, ?_, ?_, ?_⟩
        · refine nodup_of_count_le (fun a => ?_) hnd
          exact occIds_roomSuccess_count st gl restJ _ _ judge hj a
        · show (regKeys (setTeamsStatus _ _ _)).Nodup
          rw [regKeys_setTeamsStatus, regKeys_updateStatus]
          exact hkeys
        · intro l
          obtain ⟨hsg, hpd, htm, hjd⟩ := hS l
          refine ⟨?_, ?_, ?_, ?_⟩
          · intro u hu
            exact htrans u.1 _ l (hconfSel u.1 _ l (hsg u hu) (Or.inl (by simp)))
              (hconfJ u.1 _ l (hsg u hu) (Or.inl (by simp))) (hsg u hu)
          · intro u hu
            exact htrans u.1 _ l (hconfSel u.1 _ l (hpd u hu) (Or.inl (by simp)))
              (hconfJ u.1 _ l (hpd u hu) (Or.inl (by simp))) (hpd u hu)
          · intro t ht
            by_cases hlg : l = gl
            · subst hlg
              rw [PerLang.get_set_same] at ht
              have hnddrop : (teamIds ((st.teams.get l).take TEAMS_PER_ROOM) ++
                  teamIds ((st.teams.get l).drop TEAMS_PER_ROOM)).Nodup := by
                rw [← teamIds_append, List.take_append_drop]
                exact teamIds_nodup_of_occIds hnd l
              have hdisj := List.disjoint_of_nodup_append hnddrop
              have ht2 : t ∈ st.teams.get l := (List.drop_sublist _ _).subset ht
              refine ⟨htrans t.1.1 _ l ?_
                  (hconfJ t.1.1 _ l (htm t ht2).1 (Or.inl (by simp))) (htm t ht2).1,
                htrans t.2.1 _ l ?_
                  (hconfJ t.2.1 _ l (htm t ht2).2 (Or.inl (by simp))) (htm t ht2).2⟩
              · intro hmem
                exact hdisj hmem (mem_teamIds_fst ht)
              · intro hmem
                exact hdisj hmem (mem_teamIds_snd ht)
            · rw [PerLang.get_set_ne _ _ _ _ hlg] at ht
              exact ⟨htrans t.1.1 _ l (hconfSel t.1.1 _ l (htm t ht).1 (Or.inr hlg))
                  (hconfJ t.1.1 _ l (htm t ht).1 (Or.inl (by simp))) (htm t ht).1,
                htrans t.2.1 _ l (hconfSel t.2.1 _ l (htm t ht).2 (Or.inr hlg))
                  (hconfJ t.2.1 _ l (htm t ht).2 (Or.inl (by simp))) (htm t ht).2⟩
          · intro u hu
            by_cases hlg : l = gl
            · subst hlg
              rw [PerLang.get_set_same] at hu
              have hu2 : u ∈ st.judges.get l := by
                rw [hj]
                exact List.mem_cons_of_mem _ hu
              have hndj : (idsOf (st.judges.get l)).Nodup :=
                ((judgeIds_sublist_langIds st l).trans (langIds_sublist_occIds st l)).nodup
                  hnd
              refine htrans u.1 _ l
                (hconfSel u.1 _ l (hjd u hu2) (Or.inl (by simp))) ?_ (hjd u hu2)
              intro hh
              rw [hj] at hndj
              simp only [idsOf, List.map_cons, List.nodup_cons] at hndj
              exact hndj.1 (hh ▸ List.mem_map_of_mem _ hu)
            · rw [PerLang.get_set_ne _ _ _ _ hlg] at hu
              exact htrans u.1 _ l (hconfSel u.1 _ l (hjd u hu) (Or.inl (by simp)))
                (hconfJ u.1 _ l (hjd u hu) (Or.inr hlg)) (hjd u hu)
        · intro e he hlk
          dsimp only at hlk
          rw [lookupReg_setTeamsStatus] at hlk
          by_cases hm1 : e.1 ∈ teamIds ((st.teams.get gl).take TEAMS_PER_ROOM)
          · rw [if_pos hm1] at hlk
            cases hbase : lookupReg (updateStatus st.reg judge.1
                (.inGame ("room_" ++ gl.code ++ "_" ++ eventId.take 8))) e.1 with
            | none => rw [hbase] at hlk; exact absurd hlk (by simp)
            | some base =>
              rw [hbase] at hlk
              have he2 : e.2 = { base with status := .inGame ("room_" ++ gl.code ++ "_" ++ eventId.take 8) } := (Option.some.inj hlk).symm
              rw [he2]
              exact ⟨fun h => absurd h (by simp), fun h => absurd h (by simp),
                fun h => absurd h (by simp), fun h => absurd h (by simp)⟩
          · rw [if_neg hm1, lookupReg_updateStatus] at hlk
            by_cases hm2 : e.1 = judge.1
            · rw [if_pos hm2] at hlk
              cases hbase : lookupReg st.reg judge.1 with
              | none => rw [hbase] at hlk; exact absurd hlk (by simp)
              | some base =>
                rw [hbase] at hlk
                have he2 : e.2 = { base with status := .inGame ("room_" ++ gl.code ++ "_" ++ eventId.take 8) } := (Option.some.inj hlk).symm
                rw [he2]
                exact ⟨fun h => absurd h (by simp), fun h => absurd h (by simp),
                  fun h => absurd h (by simp), fun h => absurd h (by simp)⟩
            · rw [if_neg hm2] at hlk
              have hold := hT e (mem_of_lookupReg hlk) hlk
              refine ⟨fun h => hold.1 h, fun h => hold.2.1 h, fun h => ?_, fun h => ?_⟩
              · have hin := hold.2.2.1 h
                dsimp only
                by_cases hlg : e.2.gameLang = gl
                · rw [hlg, PerLang.get_set_same]
                  rw [hlg] at hin
                  have : e.1 ∈ teamIds ((st.teams.get gl).take TEAMS_PER_ROOM) ++
                      teamIds ((st.teams.get gl).drop TEAMS_PER_ROOM) := by
                    rw [← teamIds_append, List.take_append_drop]
                    exact hin
                  rcases List.mem_append.mp this with hh | hh
                  · exact absurd hh hm1
                  · exact hh
                · rw [PerLang.get_set_ne _ _ _ _ hlg]
                  exact hin
              · have hin := hold.2.2.2 h
                dsimp only
                by_cases hlg : e.2.gameLang = gl
                · rw [hlg, PerLang.get_set_same]
                  rw [hlg, hj] at hin
                  simp only [idsOf, List.map_cons, List.mem_cons] at hin
                  rcases hin with hh | hh
                  · exact absurd hh hm2
                  · exact hh
                · rw [PerLang.get_set_ne _ _ _ _ hlg]
                  exact hin
  · rw [roomFormation_below_threshold res gl st hth]
    exact hC

theorem two_not_mem_of_nodup_middle {x y : Nat} {A B : List Nat}
    (h : (A ++ x :: y :: B).Nodup) : x ∉ A ++ B ∧ y ∉ A ++ B ∧ x ≠ y := by
  have h1 := List.nodup_middle.mp h
  simp only [List.nodup_cons] at h1
  have h2 := List.nodup_middle.mp h1.2
  simp only [List.nodup_cons] at h2
  refine ⟨?_, h2.1, ?_⟩
  · intro hm
    apply h1.1
    rcases List.mem_append.mp hm with hm | hm
    · exact List.mem_append_left _ hm
    · exact List.mem_append_right _ (List.mem_cons_of_mem _ hm)
  · intro he
    exact h1.1 (he ▸ List.mem_append_right _ (List.mem_cons_self _ _))

theorem occIds_cascade_count (st : GMState) (gl : Lang) (t : TeamTuple)
    (pre post : List TeamTuple) (mate : UserTuple) (uid : Nat) (R : Reg) (a : Nat)
    (hdec : st.teams.get gl = pre ++ t :: post)
    (hids : (t.1.1 = uid ∧ t.2 = mate) ∨ (t.2.1 = uid ∧ t.1 = mate)) :
    (occIds { st with reg := R, teams := st.teams.set gl (pre ++ post), singles := st.singles.set gl (st.singles.get gl ++ [mate]) }).count a ≤ (occIds st).count a := by
  obtain ⟨t1, t2⟩ := t
  rcases hids with ⟨h1, h2⟩ | ⟨h1, h2⟩ <;> subst h2 <;>
    cases gl <;> simp only [PerLang.get] at hdec <;>
    simp [occIds, langIds, idsOf, pendingIds, PerLang.get, PerLang.set, hdec,
      teamIds_append, teamIds_cons, teamIds, List.count_append, List.count_cons,
      beq_iff_eq] <;>
    split_ifs <;> omega

theorem consistent_remove (uid : Nat) (st : GMState) (hC : Consistent st) :
    Consistent (removeUserFromQueues uid st).1 := by
  obtain ⟨hnd, hkeys, hS, hT⟩ := hC
  cases hl : lookupReg st.reg uid with
  | none =>
    rw [remove_eq_of_no_record st uid hl]
    exact ⟨hnd, hkeys, hS, hT⟩
  | some inv =>
    have hinvOK : recOK st uid inv.status inv.gameLang := by
      unfold recOK
      rw [hl]
      exact ⟨rfl, rfl⟩
    have hconfU : ∀ (u : Nat) (s : Status) (l : Lang), recOK st u s l →
        (s ≠ inv.status ∨ l ≠ inv.gameLang) → u ≠ uid := by
      intro u s l hr hor hu
      have := recOK_unique hr (hu ▸ hinvOK)
      rcases hor with h | h
      · exact h this.1
      · exact h this.2
    have herase : lookupReg (eraseReg st.reg uid) uid = none :=
      lookupReg_eraseReg_self _ _ hkeys
    have hkeyserase : (regKeys (eraseReg st.reg uid)).Nodup :=
      (regKeys_eraseReg_sublist _ _).nodup hkeys
    cases hstat : inv.status with
    | waitingSingle =>
      rw [remove_eq_waitingSingle st uid inv hl hstat]
      dsimp only
      refine ⟨?_, hkeyserase, ?_, ?_⟩
      · exact nodup_of_count_le (fun a => occIds_filter_singles_count st inv.gameLang uid _ a)
          hnd
      · intro l
        obtain ⟨hsg, hpd, htm, hjd⟩ := hS l
        have htrans : ∀ (u : Nat) (s : Status), u ≠ uid → recOK st u s l →
            recOK { st with reg := eraseReg st.reg uid, singles := st.singles.set inv.gameLang ((st.singles.get inv.gameLang).filter (fun u => u.1 ≠ uid)) } u s l := by
          intro u s hu hr
          refine recOK_of_lookup_eq ?_ hr
          dsimp only
          exact lookupReg_eraseReg_ne _ _ _ hu
        refine ⟨?_, ?_, ?_, ?_⟩
        · intro u hu
          by_cases hlg : l = inv.gameLang
          · subst hlg
            rw [PerLang.get_set_same] at hu
            have hmem := List.mem_filter.mp hu
            have hune : u.1 ≠ uid := by simpa using hmem.2
            exact htrans u.1 _ hune (hsg u hmem.1)
          · rw [PerLang.get_set_ne _ _ _ _ hlg] at hu
            exact htrans u.1 _ (hconfU u.1 _ _ (hsg u hu) (Or.inr hlg)) (hsg u hu)
        · intro u hu
          exact htrans u.1 _
            (hconfU u.1 _ _ (hpd u hu) (Or.inl (by rw [hstat]; simp))) (hpd u hu)
        · intro t ht
          exact ⟨htrans t.1.1 _
              (hconfU t.1.1 _ _ (htm t ht).1 (Or.inl (by rw [hstat]; simp))) (htm t ht).1,
            htrans t.2.1 _
              (hconfU t.2.1 _ _ (htm t ht).2 (Or.inl (by rw [hstat]; simp))) (htm t ht).2⟩
        · intro u hu
          exact htrans u.1 _
            (hconfU u.1 _ _ (hjd u hu) (Or.inl (by rw [hstat]; simp))) (hjd u hu)
      · intro e he hlk
        dsimp only at hlk
        have hne : e.1 ≠ uid := by
          intro hh
          rw [hh, herase] at hlk
          exact Option.noConfusion hlk
        rw [lookupReg_eraseReg_ne _ _ _ hne] at hlk
        have hold := hT e (mem_of_lookupReg hlk) hlk
        refine ⟨fun h => ?_, fun h => hold.2.1 h, fun h => hold.2.2.1 h,
          fun h => hold.2.2.2 h⟩
        have hin := hold.1 h
        dsimp only
        by_cases hlg : e.2.gameLang = inv.gameLang
        · rw [hlg, PerLang.get_set_same]
          rw [hlg] at hin
          obtain ⟨ut, hut, hue⟩ := List.mem_map.mp hin
          refine List.mem_map.mpr ⟨ut, List.mem_filter.mpr ⟨hut, ?_⟩, hue⟩
          rw [hue]
          simpa using hne
        · rw [PerLang.get_set_ne _ _ _ _ hlg]
          exact hin
    | waitingJudge =>
      rw [remove_eq_waitingJudge st uid inv hl hstat]
      dsimp only
      refine ⟨?_, hkeyserase, ?_, ?_⟩
      · exact nodup_of_count_le (fun a => occIds_filter_judges_count st inv.gameLang uid _ a)
          hnd
      · intro l
        obtain ⟨hsg, hpd, htm, hjd⟩ := hS l
        have htrans : ∀ (u : Nat) (s : Status), u ≠ uid → recOK st u s l →
            recOK { st with reg := eraseReg st.reg uid, judges := st.judges.set inv.gameLang ((st.judges.get inv.gameLang).filter (fun u => u.1 ≠ uid)) } u s l := by
          intro u s hu hr
          refine recOK_of_lookup_eq ?_ hr
          dsimp only
          exact lookupReg_eraseReg_ne _ _ _ hu
        refine ⟨?_, ?_, ?_, ?_⟩
        · intro u hu
          exact htrans u.1 _
            (hconfU u.1 _ _ (hsg u hu) (Or.inl (by rw [hstat]; simp))) (hsg u hu)
        · intro u hu
          exact htrans u.1 _
            (hconfU u.1 _ _ (hpd u hu) (Or.inl (by rw [hstat]; simp))) (hpd u hu)
        · intro t ht
          exact ⟨htrans t.1.1 _
              (hconfU t.1.1 _ _ (htm t ht).1 (Or.inl (by rw [hstat]; simp))) (htm t ht).1,
            htrans t.2.1 _
              (hconfU t.2.1 _ _ (htm t ht).2 (Or.inl (by rw [hstat]; simp))) (htm t ht).2⟩
        · intro u hu
          by_cases hlg : l = inv.gameLang
          · subst hlg
            rw [PerLang.get_set_same] at hu
            have hmem := List.mem_filter.mp hu
            have hune : u.1 ≠ uid := by simpa using hmem.2
            exact htrans u.1 _ hune (hjd u hmem.1)
          · rw [PerLang.get_set_ne _ _ _ _ hlg] at hu
            exact htrans u.1 _ (hconfU u.1 _ _ (hjd u hu) (Or.inr hlg)) (hjd u hu)
      · intro e he hlk
        dsimp only at hlk
        have hne : e.1 ≠ uid := by
          intro hh
          rw [hh, herase] at hlk
          exact Option.noConfusion hlk
        rw [lookupReg_eraseReg_ne _ _ _ hne] at hlk
        have hold := hT e (mem_of_lookupReg hlk) hlk
        refine ⟨fun h => hold.1 h, fun h => hold.2.1 h, fun h => hold.2.2.1 h,
          fun h => ?_⟩
        have hin := hold.2.2.2 h
        dsimp only
        by_cases hlg : e.2.gameLang = inv.gameLang
        · rw [hlg, PerLang.get_set_same]
          rw [hlg] at hin
          obtain ⟨ut, hut, hue⟩ := List.mem_map.mp hin
          refine List.mem_map.mpr ⟨ut, List.mem_filter.mpr ⟨hut, ?_⟩, hue⟩
          rw [hue]
          simpa using hne
        · rw [PerLang.get_set_ne _ _ _ _ hlg]
          exact hin
    | waitingTeamPartner =>
      have hmemP := (hT (uid, inv) (mem_of_lookupReg hl) hl).2.1 hstat
      obtain ⟨p, hpe, hpu⟩ := mem_pendingIds_elim hmemP
      rw [remove_eq_waitingTeamPartner_hit st uid inv p hl hstat hpe hpu]
      dsimp only
      refine ⟨?_, hkeyserase, ?_, ?_⟩
      · exact nodup_of_count_le (fun a => occIds_clear_pending_count st inv.gameLang _ a) hnd
      · intro l
        obtain ⟨hsg, hpd, htm, hjd⟩ := hS l
        have htrans : ∀ (u : Nat) (s : Status), u ≠ uid → recOK st u s l →
            recOK { st with reg := eraseReg st.reg uid, pending := st.pending.set inv.gameLang none } u s l := by
          intro u s hu hr
          refine recOK_of_lookup_eq ?_ hr
          dsimp only
          exact lookupReg_eraseReg_ne _ _ _ hu
        refine ⟨?_, ?_, ?_, ?_⟩
        · intro u hu
          exact htrans u.1 _
            (hconfU u.1 _ _ (hsg u hu) (Or.inl (by rw [hstat]; simp))) (hsg u hu)
        · intro u hu
          by_cases hlg : l = inv.gameLang
          · subst hlg
            rw [PerLang.get_set_same] at hu
            simp at hu
          · rw [PerLang.get_set_ne _ _ _ _ hlg] at hu
            exact htrans u.1 _ (hconfU u.1 _ _ (hpd u hu) (Or.inr hlg)) (hpd u hu)
        · intro t ht
          exact ⟨htrans t.1.1 _
              (hconfU t.1.1 _ _ (htm t ht).1 (Or.inl (by rw [hstat]; simp))) (htm t ht).1,
            htrans t.2.1 _
              (hconfU t.2.1 _ _ (htm t ht).2 (Or.inl (by rw [hstat]; simp))) (htm t ht).2⟩
        · intro u hu
          exact htrans u.1 _
            (hconfU u.1 _ _ (hjd u hu) (Or.inl (by rw [hstat]; simp))) (hjd u hu)
      · intro e he hlk
        dsimp only at hlk
        have hne : e.1 ≠ uid := by
          intro hh
          rw [hh, herase] at hlk
          exact Option.noConfusion hlk
        rw [lookupReg_eraseReg_ne _ _ _ hne] at hlk
        have hold := hT e (mem_of_lookupReg hlk) hlk
        refine ⟨fun h => hold.1 h, fun h => ?_, fun h => hold.2.2.1 h,
          fun h => hold.2.2.2 h⟩
        have hin := hold.2.1 h
        dsimp only
        by_cases hlg : e.2.gameLang = inv.gameLang
        · rw [hlg, hpe] at hin
          simp only [pendingIds, Option.toList_some, List.map_cons, List.map_nil,
            List.mem_singleton] at hin
          exact absurd (hin.trans hpu) hne
        · rw [PerLang.get_set_ne _ _ _ _ hlg]
          exact hin
    | statusNone =>
      rw [remove_eq_statusNone st uid inv hl hstat]
      dsimp only
      refine ⟨hnd, hkeyserase, ?_, ?_⟩
      · intro l
        obtain ⟨hsg, hpd, htm, hjd⟩ := hS l
        have htrans : ∀ (u : Nat) (s : Status), u ≠ uid → recOK st u s l →
            recOK { st with reg := eraseReg st.reg uid } u s l := by
          intro u s hu hr
          refine recOK_of_lookup_eq ?_ hr
          exact lookupReg_eraseReg_ne _ _ _ hu
        exact ⟨fun u hu => htrans u.1 _
            (hconfU u.1 _ _ (hsg u hu) (Or.inl (by rw [hstat]; simp))) (hsg u hu),
          fun u hu => htrans u.1 _
            (hconfU u.1 _ _ (hpd u hu) (Or.inl (by rw [hstat]; simp))) (hpd u hu),
          fun t ht => ⟨htrans t.1.1 _
              (hconfU t.1.1 _ _ (htm t ht).1 (Or.inl (by rw [hstat]; simp))) (htm t ht).1,
            htrans t.2.1 _
              (hconfU t.2.1 _ _ (htm t ht).2 (Or.inl (by rw [hstat]; simp))) (htm t ht).2⟩,
          fun u hu => htrans u.1 _
            (hconfU u.1 _ _ (hjd u hu) (Or.inl (by rw [hstat]; simp))) (hjd u hu)⟩
      · intro e he hlk
        dsimp only at hlk
        have hne : e.1 ≠ uid := by
          intro hh
          rw [hh, herase] at hlk
          exact Option.noConfusion hlk
        rw [lookupReg_eraseReg_ne _ _ _ hne] at hlk
        exact hT e (mem_of_lookupReg hlk) hlk
    | left =>
      rw [remove_eq_left st uid inv hl hstat]
      dsimp only
      refine ⟨hnd, hkeyserase, ?_, ?_⟩
      · intro l
        obtain ⟨hsg, hpd, htm, hjd⟩ := hS l
        have htrans : ∀ (u : Nat) (s : Status), u ≠ uid → recOK st u s l →
            recOK { st with reg := eraseReg st.reg uid } u s l := by
          intro u s hu hr
          refine recOK_of_lookup_eq ?_ hr
          exact lookupReg_eraseReg_ne _ _ _ hu
        exact ⟨fun u hu => htrans u.1 _
            (hconfU u.1 _ _ (hsg u hu) (Or.inl (by rw [hstat]; simp))) (hsg u hu),
          fun u hu => htrans u.1 _
            (hconfU u.1 _ _ (hpd u hu) (Or.inl (by rw [hstat]; simp))) (hpd u hu),
          fun t ht => ⟨htrans t.1.1 _
              (hconfU t.1.1 _ _ (htm t ht).1 (Or.inl (by rw [hstat]; simp))) (htm t ht).1,
            htrans t.2.1 _
              (hconfU t.2.1 _ _ (htm t ht).2 (Or.inl (by rw [hstat]; simp))) (htm t ht).2⟩,
          fun u hu => htrans u.1 _
            (hconfU u.1 _ _ (hjd u hu) (Or.inl (by rw [hstat]; simp))) (hjd u hu)⟩
      · intro e he hlk
        dsimp only at hlk
        have hne : e.1 ≠ uid := by
          intro hh
          rw [hh, herase] at hlk
          exact Option.noConfusion hlk
        rw [lookupReg_eraseReg_ne _ _ _ hne] at hlk
        exact hT e (mem_of_lookupReg hlk) hlk
    | inGame r =>
      rw [remove_eq_inGame st uid inv r hl hstat]
      dsimp only
      have hsame : ∀ v, lookupReg (insertReg (eraseReg st.reg uid) uid ⟨inv.gameLang, inv.role, .inGame r, inv.uiLang⟩) v = lookupReg st.reg v := by
        intro v
        rw [lookupReg_insertReg]
        by_cases hv : v = uid
        · rw [if_pos hv, hv, hl, ← hstat]
        · rw [if_neg hv, lookupReg_eraseReg_ne _ _ _ hv]
      refine ⟨hnd, regKeys_insertReg_nodup _ _ _ hkeyserase, ?_, ?_⟩
      · intro l
        obtain ⟨hsg, hpd, htm, hjd⟩ := hS l
        exact ⟨fun u hu => recOK_of_lookup_eq (hsame u.1) (hsg u hu),
          fun u hu => recOK_of_lookup_eq (hsame u.1) (hpd u hu),
          fun t ht => ⟨recOK_of_lookup_eq (hsame t.1.1) (htm t ht).1,
            recOK_of_lookup_eq (hsame t.2.1) (htm t ht).2⟩,
          fun u hu => recOK_of_lookup_eq (hsame u.1) (hjd u hu)⟩
      · intro e he hlk
        dsimp only at hlk
        rw [hsame] at hlk
        exact hT e (mem_of_lookupReg hlk) hlk
    | waitingAsTeam =>
      have hmemT := (hT (uid, inv) (mem_of_lookupReg hl) hl).2.2.1 hstat
      have hsome := findTeamWithMate_isSome_of_mem uid _ hmemT
      cases hf : findTeamWithMate uid (st.teams.get inv.gameLang) with
      | none => rw [hf] at hsome; exact absurd hsome (by simp)
      | some im =>
        obtain ⟨i, mate⟩ := im
        obtain ⟨pre, t, post, hdec, hlen, hpreNm, hcase⟩ :=
          findTeamWithMate_spec uid _ i mate hf
        obtain ⟨t1, t2⟩ := t
        have hndt : (teamIds (st.teams.get inv.gameLang)).Nodup :=
          teamIds_nodup_of_occIds hnd _
        have hndt2 := hndt
        rw [hdec, teamIds_append, teamIds_cons] at hndt2
        obtain ⟨hx, hy, hxy⟩ := two_not_mem_of_nodup_middle hndt2
        have htmem : ((t1, t2) : TeamTuple) ∈ st.teams.get inv.gameLang := by
          rw [hdec]
          exact List.mem_append_right _ (List.mem_cons_self _ _)
        have hmateOK : recOK st mate.1 .waitingAsTeam inv.gameLang := by
          rcases hcase with ⟨h1, hm⟩ | ⟨h1, h2, hm⟩
          · rw [hm]
            exact ((hS inv.gameLang).2.2.1 _ htmem).2
          · rw [hm]
            exact ((hS inv.gameLang).2.2.1 _ htmem).1
        have hmne : mate.1 ≠ uid := by
          rcases hcase with ⟨h1, hm⟩ | ⟨h1, h2, hm⟩
          · rw [hm]
            intro hh
            exact hxy (h1.trans hh.symm)
          · rw [hm]
            exact h1
        obtain ⟨mateInv, hml, hms, hmg⟩ := recOK_elim hmateOK
        have hml2 : lookupReg (eraseReg st.reg uid) mate.1 = some mateInv := by
          rw [lookupReg_eraseReg_ne _ _ _ hmne]
          exact hml
        rw [remove_eq_waitingAsTeam_found st uid inv i mate mateInv hl hstat hf hml2]
        dsimp only
        have heidx : (st.teams.get inv.gameLang).eraseIdx i = pre ++ post := by
          rw [hdec, ← hlen]
          exact eraseIdx_append_cons pre _ post
        rw [heidx]
        have hlook : ∀ v, lookupReg (insertReg (eraseReg st.reg uid) mate.1 { mateInv with status := .waitingSingle }) v = if v = mate.1 then some { mateInv with status := .waitingSingle } else if v = uid then none else lookupReg st.reg v := by
          intro v
          rw [lookupReg_insertReg]
          by_cases hv1 : v = mate.1
          · simp [hv1]
          · rw [if_neg hv1, if_neg hv1]
            by_cases hv2 : v = uid
            · rw [if_pos hv2, hv2, herase]
            · rw [if_neg hv2, lookupReg_eraseReg_ne _ _ _ hv2]
        have hids : ((t1, t2) : TeamTuple).1.1 = uid ∧ ((t1, t2) : TeamTuple).2 = mate ∨
            ((t1, t2) : TeamTuple).2.1 = uid ∧ ((t1, t2) : TeamTuple).1 = mate := by
          rcases hcase with ⟨h1, hm⟩ | ⟨h1, h2, hm⟩
          · exact Or.inl ⟨h1, hm.symm⟩
          · exact Or.inr ⟨h2, hm.symm⟩
        have hconfM : ∀ (u : Nat) (s : Status) (l2 : Lang), recOK st u s l2 →
            (s ≠ .waitingAsTeam ∨ l2 ≠ inv.gameLang) → u ≠ mate.1 := by
          intro u s l2 hr hor hu
          have := recOK_unique hr (hu ▸ hmateOK)
          rcases hor with h | h
          · exact h this.1
          · exact h this.2
        refine ⟨?_, regKeys_insertReg_nodup _ _ _ hkeyserase, ?_, ?_⟩
        · exact nodup_of_count_le
            (fun a => occIds_cascade_count st inv.gameLang (t1, t2) pre post mate uid _ a
              hdec hids) hnd
        · intro l
          obtain ⟨hsg, hpd, htm, hjd⟩ := hS l
          have htrans : ∀ (u : Nat) (s : Status), u ≠ uid → u ≠ mate.1 →
              recOK st u s l →
              recOK { st with reg := insertReg (eraseReg st.reg uid) mate.1 { mateInv with status := .waitingSingle }, teams := st.teams.set inv.gameLang (pre ++ post), singles := st.singles.set inv.gameLang (st.singles.get inv.gameLang ++ [mate]) } u s l := by
            intro u s h1 h2 hr
            refine recOK_of_lookup_eq ?_ hr
            dsimp only
            rw [hlook, if_neg h2, if_neg h1]
          refine ⟨?_, ?_, ?_, ?_⟩
          · intro u hu
            by_cases hlg : l = inv.gameLang
            · subst hlg
              rw [PerLang.get_set_same] at hu
              rcases List.mem_append.mp hu with hu | hu
              · exact htrans u.1 _
                  (hconfU u.1 _ _ (hsg u hu) (Or.inl (by rw [hstat]; simp)))
                  (hconfM u.1 _ _ (hsg u hu) (Or.inl (by simp))) (hsg u hu)
              · rw [List.mem_singleton.mp hu]
                unfold recOK
                dsimp only
                rw [hlook, if_pos rfl]
                simp [hmg]
            · rw [PerLang.get_set_ne _ _ _ _ hlg] at hu
              exact htrans u.1 _ (hconfU u.1 _ _ (hsg u hu) (Or.inr hlg))
                (hconfM u.1 _ _ (hsg u hu) (Or.inl (by simp))) (hsg u hu)
          · intro u hu
            exact htrans u.1 _
              (hconfU u.1 _ _ (hpd u hu) (Or.inl (by rw [hstat]; simp)))
              (hconfM u.1 _ _ (hpd u hu) (Or.inl (by simp))) (hpd u hu)
          · intro tt htt
            by_cases hlg : l = inv.gameLang
            · subst hlg
              rw [PerLang.get_set_same] at htt
              have htt2 : tt ∈ st.teams.get inv.gameLang := by
                rw [hdec]
                rcases List.mem_append.mp htt with h | h
                · exact List.mem_append_left _ h
                · exact List.mem_append_right _ (List.mem_cons_of_mem _ h)
              have hid1 : tt.1.1 ∈ teamIds pre ++ teamIds post := by
                rw [← teamIds_append]
                exact mem_teamIds_fst htt
              have hid2 : tt.2.1 ∈ teamIds pre ++ teamIds post := by
                rw [← teamIds_append]
                exact mem_teamIds_snd htt
              have hnu1 : tt.1.1 ≠ uid ∧ tt.1.1 ≠ mate.1 := by
                rcases hids with ⟨h1, h2⟩ | ⟨h1, h2⟩
                · exact ⟨fun hh => hx (by rw [← h1] at hh; exact hh ▸ hid1),
                    fun hh => hy (by rw [← h2] at hh; exact hh ▸ hid1)⟩
                · exact ⟨fun hh => hy (by rw [← h1] at hh; exact hh ▸ hid1),
                    fun hh => hx (by rw [← h2] at hh; exact hh ▸ hid1)⟩
              have hnu2 : tt.2.1 ≠ uid ∧ tt.2.1 ≠ mate.1 := by
                rcases hids with ⟨h1, h2⟩ | ⟨h1, h2⟩
                · exact ⟨fun hh => hx (by rw [← h1] at hh; exact hh ▸ hid2),
                    fun hh => hy (by rw [← h2] at hh; exact hh ▸ hid2)⟩
                · exact ⟨fun hh => hy (by rw [← h1] at hh; exact hh ▸ hid2),
                    fun hh => hx (by rw [← h2] at hh; exact hh ▸ hid2)⟩
              exact ⟨htrans tt.1.1 _ hnu1.1 hnu1.2 (htm tt htt2).1,
                htrans tt.2.1 _ hnu2.1 hnu2.2 (htm tt htt2).2⟩
            · rw [PerLang.get_set_ne _ _ _ _ hlg] at htt
              exact ⟨htrans tt.1.1 _ (hconfU tt.1.1 _ _ (htm tt htt).1 (Or.inr hlg))
                  (hconfM tt.1.1 _ _ (htm tt htt).1 (Or.inr hlg)) (htm tt htt).1,
                htrans tt.2.1 _ (hconfU tt.2.1 _ _ (htm tt htt).2 (Or.inr hlg))
                  (hconfM tt.2.1 _ _ (htm tt htt).2 (Or.inr hlg)) (htm tt htt).2⟩
          · intro u hu
            exact htrans u.1 _
              (hconfU u.1 _ _ (hjd u hu) (Or.inl (by rw [hstat]; simp)))
              (hconfM u.1 _ _ (hjd u hu) (Or.inl (by simp))) (hjd u hu)
        · intro e he hlk
          dsimp only at hlk
          rw [hlook] at hlk
          by_cases hv1 : e.1 = mate.1
          · rw [if_pos hv1] at hlk
            have he2 : e.2 = { mateInv with status := .waitingSingle } :=
              (Option.some.inj hlk).symm
            rw [he2]
            refine ⟨fun _ => ?_, fun h => absurd h (by simp), fun h => absurd h (by simp),
              fun h => absurd h (by simp)⟩
            dsimp only
            rw [hmg, PerLang.get_set_same]
            simp [idsOf, hv1]
          · rw [if_neg hv1] at hlk
            by_cases hv2 : e.1 = uid
            · rw [if_pos hv2] at hlk
              exact absurd hlk (by simp)
            · rw [if_neg hv2] at hlk
              have hold := hT e (mem_of_lookupReg hlk) hlk
              refine ⟨fun h => ?_, fun h => hold.2.1 h, fun h => ?_, fun h => hold.2.2.2 h⟩
              · have hin := hold.1 h
                dsimp only
                by_cases hlg : e.2.gameLang = inv.gameLang
                · rw [hlg, PerLang.get_set_same]
                  rw [hlg] at hin
                  simp only [idsOf, List.map_append]
                  exact List.mem_append_left _ hin
                · rw [PerLang.get_set_ne _ _ _ _ hlg]
                  exact hin
              · have hin := hold.2.2.1 h
                dsimp only
                by_cases hlg : e.2.gameLang = inv.gameLang
                · rw [hlg, PerLang.get_set_same]
                  rw [hlg, hdec, teamIds_append, teamIds_cons] at hin
                  rw [teamIds_append]
                  rcases List.mem_append.mp hin with hh | hh
                  · exact List.mem_append_left _ hh
                  · rcases List.mem_cons.mp hh with hh | hh
                    · exfalso
                      rcases hids with ⟨h1, h2⟩ | ⟨h1, h2⟩
                      · exact hv2 (hh.trans h1)
                      · exact hv1 (by rw [hh, ← h2])
                    · rcases List.mem_cons.mp hh with hh | hh
                      · exfalso
                        rcases hids with ⟨h1, h2⟩ | ⟨h1, h2⟩
                        · exact hv1 (by rw [hh, ← h2])
                        · exact hv2 (hh.trans h1)
                      · exact List.mem_append_right _ hh
                · rw [PerLang.get_set_ne _ _ _ _ hlg]
                  exact hin

/-! ## Claim C1 — the occupancy invariant holds in every reachable state -/

theorem consistent_applyOp (op : Op) (st : GMState) (hC : Consistent st) :
    Consistent (applyOp op st) := by
  cases op with
  | addSingle uid un gl ul => exact consistent_addPlayerSingle st uid un gl ul hC
  | addTeam uid un gl ul => exact consistent_addPlayerTeam st uid un gl ul hC
  | addJudge uid un gl ul => exact consistent_addJudge st uid un gl ul hC
  | matchmake res gl =>
    exact consistent_roomFormation res gl _ (consistent_teamFormation gl st hC)
  | remove uid => exact consistent_remove uid st hC

/-- Claim C1: starting from the empty state, after any sequence of the
public operations (`add_player_single`, `add_player_team`, `add_judge`,
`try_matchmake` passes with arbitrary resource-creation outcomes, and
`remove_user_from_queues`), the occupancy-exclusivity invariant holds:
every participant identifier appears in at most one of {a singles list,
a pending-partner slot, a member of a team in `formedTeams`, a judges
list} across all languages, no identifier is duplicated within a pool
(`(occIds _).Nodup`), and every pool occupant's registry record exists
with the status and language matching the structure it appears in — and
conversely every waiting-status record is backed by the corresponding
structure (`structToStatus`/`statusToStruct` inside `Consistent`). -/
theorem claim_C1_occupancy_exclusivity (ops : List Op) :
    Consistent (applyOps ops initialState) := by
  suffices h : ∀ (l : List Op) (st : GMState), Consistent st → Consistent (applyOps l st) by
    exact h ops initialState (by decide)
  intro l
  induction l with
  | nil => intro st h; exact h
  | cons op rest ih =>
    intro st h
    exact ih _ (consistent_applyOp op st h)
